import Mathlib

/-!
Verification of the regex utility toolkit in `Implementasi_Regex.py`.

Strings are modelled as `List Char`.  Each Python `re` operation is embedded
as a hand-specialised matcher that mirrors the CPython backtracking engine on
the concrete pattern used by the source:

* character classes are ASCII predicates (the source patterns only use ASCII
  classes; internationalised matching is an explicit non-goal of the spec);
* greedy bounded repetitions `x{m,n}` become descending ladders that try the
  largest count first and backtrack downwards (`phoneDesc`, `tryMiddle`, ...);
* ordered alternation `(a|b|c)` is tried left to right with fall-through on
  failure of the whole tail;
* `$` (without `re.MULTILINE`) accepts the end of the string or a position
  just before a single final newline (`endCheck`);
* `\b` is a word/non-word boundary, tracked by threading the wordness of the
  previous character through each scanner;
* `re.findall` / `re.sub` scan left to right, restart after the end of each
  (non-empty) match, and advance one character after a failed position.

Scanners take an explicit fuel argument (the length of the input suffices,
since every match consumes at least one character) so that all definitions
compute by kernel reduction.
-/

/-! ### Character classes (ASCII, as used by the source patterns) -/

/-- `[0-9]` / `\d` (ASCII). -/
def isDigitC (c : Char) : Bool := decide ('0' ≤ c) && decide (c ≤ '9')

/-- `[a-z]`. -/
def isLowerC (c : Char) : Bool := decide ('a' ≤ c) && decide (c ≤ 'z')

/-- `[A-Z]`. -/
def isUpperC (c : Char) : Bool := decide ('A' ≤ c) && decide (c ≤ 'Z')

/-- `[a-zA-Z]`. -/
def isAlphaC (c : Char) : Bool := isLowerC c || isUpperC c

/-- `[a-zA-Z0-9]`. -/
def isAlnumC (c : Char) : Bool := isAlphaC c || isDigitC c

/-- `\w` (ASCII): letters, digits, underscore. -/
def isWordChar (c : Char) : Bool := isAlnumC c || c = '_'

/-- `\s` (ASCII): space, tab, newline, carriage return, vertical tab, form feed. -/
def isSpaceC (c : Char) : Bool :=
  c = ' ' || c = '\t' || c = '\n' || c = '\r' || c = Char.ofNat 11 || c = Char.ofNat 12

/-- Email local-part class `[a-zA-Z0-9._%+-]`. -/
def isLocalA (c : Char) : Bool :=
  isAlnumC c || c = '.' || c = '_' || c = '%' || c = '+' || c = '-'

/-- Email domain class `[a-zA-Z0-9.-]`. -/
def isDomB (c : Char) : Bool := isAlnumC c || c = '.' || c = '-'

/-- URL host class `[-a-zA-Z0-9@:%._\+~#=]`. -/
def isUrlHost (c : Char) : Bool :=
  isAlnumC c || c = '-' || c = '@' || c = ':' || c = '%' || c = '.' || c = '_' ||
  c = '+' || c = '~' || c = '#' || c = '='

/-- URL TLD class `[a-zA-Z0-9()]`. -/
def isUrlTld (c : Char) : Bool := isAlnumC c || c = '(' || c = ')'

/-- URL path class `[-a-zA-Z0-9()@:%_\+.~#?&/=]`. -/
def isUrlPath (c : Char) : Bool :=
  isAlnumC c || c = '-' || c = '(' || c = ')' || c = '@' || c = ':' || c = '%' ||
  c = '_' || c = '+' || c = '.' || c = '~' || c = '#' || c = '?' || c = '&' ||
  c = '/' || c = '='

/-- Sugar to write concrete inputs. -/
def str (s : String) : List Char := s.data

/-! ### Engine building blocks -/

/-- Python `$` (no `re.MULTILINE`): matches at the end of the string or just
before a newline that ends the string. -/
def endCheck : List Char → Bool
  | [] => true
  | c :: rest => c = '\n' && rest.isEmpty

/-- Match a literal sequence at the front, returning the rest. -/
def stripPref : List Char → List Char → Option (List Char)
  | [], s => some s
  | _ :: _, [] => none
  | p :: ps, c :: cs => if c = p then stripPref ps cs else none

/-- Take exactly `n` characters satisfying `\d`, returning them and the rest. -/
def takeDigitsN : List Char → Nat → Option (List Char × List Char)
  | s, 0 => some ([], s)
  | [], _ + 1 => none
  | c :: cs, n + 1 =>
    if isDigitC c then
      match takeDigitsN cs n with
      | some (d, r) => some (c :: d, r)
      | none => none
    else none

/-! ### `validate_phone_id` : `re.match(r'^(\+62|62|0)[0-9]{9,12}$', phone)`

The bounded greedy repetition `[0-9]{9,12}` consumes as many digits as
possible (at most 12) and backtracks down to 9 before the `$` check; the
ladder `phoneDesc` tries the candidate digit counts in the engine's order. -/

/-- Try digit counts `k, k-1, ..., 9` followed by `$`. -/
def phoneDesc (r : List Char) : Nat → Bool
  | 0 => false
  | k + 1 =>
    if k + 1 < 9 then false
    else endCheck (r.drop (k + 1)) || phoneDesc r k

/-- `[0-9]{9,12}$` on the remainder after the prefix. -/
def phoneTailV (r : List Char) : Bool :=
  phoneDesc r (min 12 (r.takeWhile isDigitC).length)

/-- `validate_phone_id` from the source (anchored match of the whole string). -/
def validate_phone_id (s : List Char) : Bool :=
  (match stripPref (str "+62") s with
   | some r => phoneTailV r
   | none => false) ||
  (match stripPref (str "62") s with
   | some r => phoneTailV r
   | none => false) ||
  (match stripPref (str "0") s with
   | some r => phoneTailV r
   | none => false)

/-! ### `extract_phone_numbers` : `re.findall(r'(\+62|62|0)[0-9]{9,12}', text)`

The pattern contains exactly one capture group (the prefix alternation), so
CPython's `findall` returns the list of *group* matches, not the whole
matched substrings.  `matchPhoneAt` returns the pair (group-1 text, rest of
the input after the whole match). -/

/-- `[0-9]{9,12}` unanchored: greedily take `min 12 run` digits, succeed iff
at least 9 are available; returns the rest after the digits. -/
def phoneTailE (r : List Char) : Option (List Char) :=
  if 9 ≤ (r.takeWhile isDigitC).length then
    some (r.drop (min 12 (r.takeWhile isDigitC).length))
  else none

/-- Third alternative `0` of the phone prefix alternation. -/
def matchPhoneAt3 (s : List Char) : Option (List Char × List Char) :=
  match stripPref (str "0") s with
  | some r =>
    match phoneTailE r with
    | some rest => some (str "0", rest)
    | none => none
  | none => none

/-- Second alternative `62`, falling through to `0`. -/
def matchPhoneAt2 (s : List Char) : Option (List Char × List Char) :=
  match stripPref (str "62") s with
  | some r =>
    match phoneTailE r with
    | some rest => some (str "62", rest)
    | none => matchPhoneAt3 s
  | none => matchPhoneAt3 s

/-- Try the whole phone pattern at the current position; ordered alternation
with fall-through when the digit tail fails. -/
def matchPhoneAt (s : List Char) : Option (List Char × List Char) :=
  match stripPref (str "+62") s with
  | some r =>
    match phoneTailE r with
    | some rest => some (str "+62", rest)
    | none => matchPhoneAt2 s
  | none => matchPhoneAt2 s

/-- `findall` scan: on a match emit the capture group and continue after the
whole match; otherwise advance one character. -/
def phonesGoF : Nat → List Char → List (List Char)
  | 0, _ => []
  | _ + 1, [] => []
  | fuel + 1, c :: cs =>
    match matchPhoneAt (c :: cs) with
    | some (g, rest) => g :: phonesGoF fuel rest
    | none => phonesGoF fuel cs

/-- `extract_phone_numbers` from the source. -/
def extract_phone_numbers (t : List Char) : List (List Char) :=
  phonesGoF t.length t

/-! ### C1 / C2 -/

/-- Claim C1 (code bug): on the text `"081234567890"` the extractor returns
`["0"]` — only the capture group, which is not a substring matching the full
phone format (`validate_phone_id "0"` is `false`), because `re.findall`
returns group 1 when the pattern has a capture group. -/
theorem extract_phone_returns_group_only :
    extract_phone_numbers (str "081234567890") = [str "0"] ∧
    validate_phone_id (str "0") = false := by
  constructor <;> decide

/-- Claim C2 (code bug): the validator accepts `"081234567890"`, but running
the phone extractor on a text consisting solely of that string returns
`["0"]`, not a one-element list containing the original string. -/
theorem validator_extractor_roundtrip_fails :
    validate_phone_id (str "081234567890") = true ∧
    extract_phone_numbers (str "081234567890") = [str "0"] ∧
    [str "0"] ≠ [str "081234567890"] := by
  refine ⟨by decide, by decide, by decide⟩

/-! ### `mask_phone` : `re.sub(r'(\+62|62|0)(\d{5,8})(\d{4})', r'\1****\3', text)`

The middle repetition `\d{5,8}` is greedy: the engine tries 8 digits first
and backtracks down to 5 so that the trailing `(\d{4})` can still match. -/

/-- Greedy ladder for `(\d{5,8})(\d{4})`: try middle length `k, k-1, ..., 5`;
returns (middle digits, last four digits, rest). -/
def tryMiddle (s : List Char) : Nat → Option (List Char × List Char × List Char)
  | 0 => none
  | k + 1 =>
    if k + 1 < 5 then none
    else
      match takeDigitsN s (k + 1) with
      | some (m, r1) =>
        match takeDigitsN r1 4 with
        | some (l4, rest) => some (m, l4, rest)
        | none => tryMiddle s k
      | none => tryMiddle s k

/-- Third alternative `0` of the mask-phone prefix alternation. -/
def matchMaskAt3 (s : List Char) : Option (List Char × List Char × List Char × List Char) :=
  match stripPref (str "0") s with
  | some r =>
    match tryMiddle r 8 with
    | some (m, l4, rest) => some (str "0", m, l4, rest)
    | none => none
  | none => none

/-- Second alternative `62`, falling through to `0`. -/
def matchMaskAt2 (s : List Char) : Option (List Char × List Char × List Char × List Char) :=
  match stripPref (str "62") s with
  | some r =>
    match tryMiddle r 8 with
    | some (m, l4, rest) => some (str "62", m, l4, rest)
    | none => matchMaskAt3 s
  | none => matchMaskAt3 s

/-- Try the mask-phone pattern at the current position. -/
def matchMaskAt (s : List Char) : Option (List Char × List Char × List Char × List Char) :=
  match stripPref (str "+62") s with
  | some r =>
    match tryMiddle r 8 with
    | some (m, l4, rest) => some (str "+62", m, l4, rest)
    | none => matchMaskAt2 s
  | none => matchMaskAt2 s

/-- `re.sub` scan for `mask_phone`: each match is rewritten to
`\1****\3`; otherwise copy one character and advance. -/
def maskGoF : Nat → List Char → List Char
  | 0, s => s
  | _ + 1, [] => []
  | fuel + 1, c :: cs =>
    match matchMaskAt (c :: cs) with
    | some (p, _, l4, rest) => p ++ str "****" ++ l4 ++ maskGoF fuel rest
    | none => c :: maskGoF fuel cs

/-- `mask_phone` from the source. -/
def mask_phone (t : List Char) : List Char := maskGoF t.length t

/-! #### Lemmas about `takeDigitsN` and `tryMiddle` -/

theorem takeDigitsN_append (d r : List Char) (hd : d.all isDigitC = true) :
    takeDigitsN (d ++ r) d.length = some (d, r) := by
  induction d with
  | nil => simp [takeDigitsN]
  | cons c cs ih =>
    simp only [List.all_cons, Bool.and_eq_true] at hd
    simp [takeDigitsN, hd.1, ih hd.2]

theorem takeDigitsN_too_short (s : List Char) (n : Nat) (h : s.length < n) :
    takeDigitsN s n = none := by
  induction s generalizing n with
  | nil =>
    match n, h with
    | n + 1, _ => rfl
  | cons c cs ih =>
    match n, h with
    | n + 1, h =>
      simp only [List.length_cons, Nat.add_lt_add_iff_right] at h
      simp [takeDigitsN, ih n h]

theorem takeDigitsN_of_le (s : List Char) (n : Nat) (hd : s.all isDigitC = true)
    (h : n ≤ s.length) : takeDigitsN s n = some (s.take n, s.drop n) := by
  have hs : s = s.take n ++ s.drop n := (List.take_append_drop n s).symm
  have hlen : (s.take n).length = n := by simp [List.length_take, Nat.min_eq_left h]
  have htake : (s.take n).all isDigitC = true := by
    rw [List.all_eq_true] at hd ⊢
    intro x hx
    exact hd x (List.mem_of_mem_take hx)
  calc takeDigitsN s n = takeDigitsN (s.take n ++ s.drop n) ((s.take n).length) := by
        rw [← hs, hlen]
    _ = some (s.take n, s.drop n) := takeDigitsN_append _ _ htake

theorem tryMiddle_eq (ds : List Char) (hd : ds.all isDigitC = true)
    (h9 : 9 ≤ ds.length) (h12 : ds.length ≤ 12) :
    ∀ k, ds.length - 4 ≤ k →
      tryMiddle ds k = some (ds.take (ds.length - 4), ds.drop (ds.length - 4), []) := by
  intro k
  induction k with
  | zero => intro h; omega
  | succ k ih =>
    intro hk
    have hge5 : ¬ (k + 1 < 5) := by omega
    rcases Nat.lt_or_ge k (ds.length - 4) with hlt | hge
    · -- k + 1 = ds.length - 4 : this is the step where the engine succeeds
      have heq : k + 1 = ds.length - 4 := by omega
      have hle : k + 1 ≤ ds.length := by omega
      have hdroplen : (ds.drop (k + 1)).length = 4 := by
        simp [List.length_drop]; omega
      have hdropall : (ds.drop (k + 1)).all isDigitC = true := by
        rw [List.all_eq_true] at hd ⊢
        intro x hx
        exact hd x (List.mem_of_mem_drop hx)
      have h4 : takeDigitsN (ds.drop (k + 1)) 4 = some (ds.drop (k + 1), []) := by
        have := takeDigitsN_append (ds.drop (k + 1)) [] hdropall
        simpa [hdroplen] using this
      have hfirst := takeDigitsN_of_le ds (k + 1) hd hle
      rw [tryMiddle, if_neg hge5, hfirst]
      dsimp only
      rw [h4]
      dsimp only
      rw [heq]
    · -- k + 1 > ds.length - 4 : this step fails and the engine backtracks
      have hrec := ih hge
      rw [tryMiddle, if_neg hge5]
      rcases Nat.lt_or_ge ds.length (k + 1) with hbig | hfit
      · rw [takeDigitsN_too_short ds (k + 1) hbig]
        exact hrec
      · rw [takeDigitsN_of_le ds (k + 1) hd hfit]
        dsimp only
        have hlt4 : (ds.drop (k + 1)).length < 4 := by
          simp [List.length_drop]; omega
        rw [takeDigitsN_too_short _ 4 hlt4]
        exact hrec

theorem maskGoF_nil (f : Nat) : maskGoF f [] = [] := by
  cases f <;> rfl

theorem stripPref_self (p s : List Char) : stripPref p (p ++ s) = some s := by
  induction p with
  | nil => rfl
  | cons c cs ih => simp [stripPref, ih]

theorem maskGoF_cons (fuel : Nat) (c : Char) (cs : List Char) :
    maskGoF (fuel + 1) (c :: cs) =
      match matchMaskAt (c :: cs) with
      | some (p, _, l4, rest) => p ++ str "****" ++ l4 ++ maskGoF fuel rest
      | none => c :: maskGoF fuel cs := rfl

/-- Claim C4: for a string that is exactly a phone prefix followed by 9 to 12
digits, `mask_phone` yields the prefix, then exactly `****`, then the
original last four digits. -/
theorem mask_phone_masks (p ds : List Char)
    (hp : p = str "+62" ∨ p = str "62" ∨ p = str "0")
    (hd : ds.all isDigitC = true) (h9 : 9 ≤ ds.length) (h12 : ds.length ≤ 12) :
    mask_phone (p ++ ds) = p ++ str "****" ++ ds.drop (ds.length - 4) := by
  have hmid : tryMiddle ds 8 =
      some (ds.take (ds.length - 4), ds.drop (ds.length - 4), []) :=
    tryMiddle_eq ds hd h9 h12 8 (by omega)
  rcases hp with hp | hp | hp <;> subst hp
  · -- prefix +62
    have hmatch : matchMaskAt (str "+62" ++ ds) =
        some (str "+62", ds.take (ds.length - 4), ds.drop (ds.length - 4), []) := by
      rw [matchMaskAt, stripPref_self]
      dsimp only
      rw [hmid]
    rw [mask_phone]
    rw [show (str "+62" ++ ds : List Char) = '+' :: ('6' :: '2' :: ds) from rfl] at hmatch ⊢
    rw [List.length_cons, maskGoF_cons, hmatch]
    dsimp only
    simp [maskGoF_nil, str]
  · -- prefix 62
    have hmatch : matchMaskAt (str "62" ++ ds) =
        some (str "62", ds.take (ds.length - 4), ds.drop (ds.length - 4), []) := by
      rw [matchMaskAt]
      rw [show stripPref (str "+62") (str "62" ++ ds) = none from rfl]
      dsimp only
      rw [matchMaskAt2, stripPref_self]
      dsimp only
      rw [hmid]
    rw [mask_phone]
    rw [show (str "62" ++ ds : List Char) = '6' :: ('2' :: ds) from rfl] at hmatch ⊢
    rw [List.length_cons, maskGoF_cons, hmatch]
    dsimp only
    simp [maskGoF_nil, str]
  · -- prefix 0
    have hmatch : matchMaskAt (str "0" ++ ds) =
        some (str "0", ds.take (ds.length - 4), ds.drop (ds.length - 4), []) := by
      rw [matchMaskAt]
      rw [show stripPref (str "+62") (str "0" ++ ds) = none from rfl]
      dsimp only
      rw [matchMaskAt2]
      rw [show stripPref (str "62") (str "0" ++ ds) = none from rfl]
      dsimp only
      rw [matchMaskAt3, stripPref_self]
      dsimp only
      rw [hmid]
    rw [mask_phone]
    rw [show (str "0" ++ ds : List Char) = '0' :: ds from rfl] at hmatch ⊢
    rw [List.length_cons, maskGoF_cons, hmatch]
    dsimp only
    simp [maskGoF_nil, str]

/-- Witness for C4 at the concrete input `"081234567890"`. -/
theorem mask_phone_masks_witness :
    ((str "0" = str "+62" ∨ str "0" = str "62" ∨ str "0" = str "0") ∧
      (str "81234567890").all isDigitC = true ∧
      9 ≤ (str "81234567890").length ∧ (str "81234567890").length ≤ 12) ∧
    mask_phone (str "0" ++ str "81234567890") =
      str "0" ++ str "****" ++ (str "81234567890").drop ((str "81234567890").length - 4) :=
  ⟨⟨by decide, by decide, by decide, by decide⟩,
    mask_phone_masks (str "0") (str "81234567890")
      (by decide) (by decide) (by decide) (by decide)⟩

/-! ### `normalize_whitespace` : `re.sub(r'\s+', ' ', text).strip()`

`re.sub(r'\s+', ' ', text)` replaces every maximal run of whitespace with a
single space; `wsGo` performs that scan, tracking whether the current
position is inside a run already replaced.  `.strip()` then removes leading
and trailing whitespace (`stripEnds`). -/

/-- The `re.sub(r'\s+', ' ', ·)` scan. -/
def wsGo : Bool → List Char → List Char
  | _, [] => []
  | inRun, c :: cs =>
    if isSpaceC c then
      if inRun then wsGo true cs else ' ' :: wsGo true cs
    else c :: wsGo false cs

/-- Python `str.strip()`: drop whitespace from both ends. -/
def stripEnds (l : List Char) : List Char :=
  ((l.dropWhile isSpaceC).reverse.dropWhile isSpaceC).reverse

/-- `normalize_whitespace` from the source. -/
def normalize_whitespace (t : List Char) : List Char := stripEnds (wsGo false t)

/-- Two adjacent literal space characters occur somewhere. -/
def hasDoubleSpace : List Char → Bool
  | c1 :: c2 :: rest => (c1 = ' ' && c2 = ' ') || hasDoubleSpace (c2 :: rest)
  | _ => false

/-- The first or last character is whitespace. -/
def startsOrEndsSpace (l : List Char) : Bool :=
  (match l.head? with
   | some c => isSpaceC c
   | none => false) ||
  (match l.getLast? with
   | some c => isSpaceC c
   | none => false)

/-! #### Lemmas for C6 -/

theorem wsGo_true_head (t : List Char) (c : Char) (rest : List Char)
    (h : wsGo true t = c :: rest) : isSpaceC c = false := by
  induction t generalizing c rest with
  | nil => simp [wsGo] at h
  | cons d ds ih =>
    by_cases hd : isSpaceC d = true
    · rw [show wsGo true (d :: ds) = wsGo true ds by simp [wsGo, hd]] at h
      exact ih c rest h
    · rw [show wsGo true (d :: ds) = d :: wsGo false ds by
        simp [wsGo, hd]] at h
      cases h
      simpa using hd

theorem wsGo_no_double (t : List Char) (b : Bool) :
    hasDoubleSpace (wsGo b t) = false := by
  induction t generalizing b with
  | nil => cases b <;> rfl
  | cons c cs ih =>
    by_cases hc : isSpaceC c = true
    · cases b
      · rw [show wsGo false (c :: cs) = ' ' :: wsGo true cs by simp [wsGo, hc]]
        cases hrec : wsGo true cs with
        | nil => rfl
        | cons d ds =>
          have hd : isSpaceC d = false := wsGo_true_head cs d ds hrec
          have hdne : (d = ' ') = False := by
            simp only [eq_iff_iff, iff_false]
            intro hde
            rw [hde] at hd
            simp [isSpaceC] at hd
          rw [show hasDoubleSpace (' ' :: d :: ds) =
                ((' ' = ' ' && d = ' ') || hasDoubleSpace (d :: ds)) from rfl]
          rw [← hrec]
          simp [hdne, ih true]
      · rw [show wsGo true (c :: cs) = wsGo true cs by simp [wsGo, hc]]
        exact ih true
    · rw [show wsGo b (c :: cs) = c :: wsGo false cs by simp [wsGo, hc]]
      have hcne : (c = ' ') = False := by
        simp only [eq_iff_iff, iff_false]
        intro hce
        rw [hce] at hc
        simp [isSpaceC] at hc
      cases hrec : wsGo false cs with
      | nil => rfl
      | cons d ds =>
        rw [show hasDoubleSpace (c :: d :: ds) =
              ((c = ' ' && d = ' ') || hasDoubleSpace (d :: ds)) from rfl]
        rw [← hrec]
        simp [hcne, ih false]

theorem wsGo_only_blank (t : List Char) (b : Bool) (c : Char)
    (hmem : c ∈ wsGo b t) (hsp : isSpaceC c = true) : c = ' ' := by
  induction t generalizing b with
  | nil => simp [wsGo] at hmem
  | cons d ds ih =>
    by_cases hd : isSpaceC d = true
    · cases b
      · rw [show wsGo false (d :: ds) = ' ' :: wsGo true ds by simp [wsGo, hd]] at hmem
        rcases List.mem_cons.mp hmem with h | h
        · exact h
        · exact ih true h
      · rw [show wsGo true (d :: ds) = wsGo true ds by simp [wsGo, hd]] at hmem
        exact ih true hmem
    · rw [show wsGo b (d :: ds) = d :: wsGo false ds by simp [wsGo, hd]] at hmem
      rcases List.mem_cons.mp hmem with h | h
      · rw [h] at hsp; rw [hsp] at hd; simp at hd
      · exact ih false h

theorem dropWhile_head_false (p : Char → Bool) (l : List Char) (c : Char)
    (h : (l.dropWhile p).head? = some c) : p c = false := by
  induction l with
  | nil => simp [List.dropWhile] at h
  | cons d ds ih =>
    by_cases hd : p d = true
    · rw [show (d :: ds).dropWhile p = ds.dropWhile p by simp [List.dropWhile, hd]] at h
      exact ih h
    · have hd2 : p d = false := by simpa using hd
      rw [show (d :: ds).dropWhile p = d :: ds by simp [List.dropWhile, hd2]] at h
      simp only [List.head?_cons, Option.some_inj] at h
      rw [← h]
      exact hd2

theorem dropWhile_is_suffix (p : Char → Bool) (l : List Char) :
    ∃ u, u ++ l.dropWhile p = l := by
  induction l with
  | nil => exact ⟨[], rfl⟩
  | cons d ds ih =>
    by_cases hd : p d = true
    · obtain ⟨u, hu⟩ := ih
      exact ⟨d :: u, by simp [List.dropWhile, hd, hu]⟩
    · have hd2 : p d = false := by simpa using hd
      exact ⟨[], by simp [List.dropWhile, hd2]⟩

theorem getLast?_rev (l : List Char) : l.reverse.getLast? = l.head? := by
  cases l with
  | nil => rfl
  | cons c cs => simp

theorem hasDouble_suffix (u m : List Char)
    (h : hasDoubleSpace (u ++ m) = false) : hasDoubleSpace m = false := by
  induction u with
  | nil => simpa using h
  | cons c u' ih =>
    apply ih
    cases h2 : u' ++ m with
    | nil => rfl
    | cons d ds =>
      rw [show (c :: u') ++ m = c :: (u' ++ m) from rfl, h2] at h
      rw [show hasDoubleSpace (c :: d :: ds) =
            ((c = ' ' && d = ' ') || hasDoubleSpace (d :: ds)) from rfl] at h
      exact (Bool.or_eq_false_iff.mp h).2

theorem hasDouble_of_prefix (m t : List Char)
    (h : hasDoubleSpace (m ++ t) = false) : hasDoubleSpace m = false := by
  induction m with
  | nil => rfl
  | cons c m' ih =>
    cases m' with
    | nil => rfl
    | cons d m'' =>
      rw [show ((c :: d :: m'') ++ t) = c :: d :: (m'' ++ t) from rfl] at h
      rw [show hasDoubleSpace (c :: d :: (m'' ++ t)) =
            ((c = ' ' && d = ' ') || hasDoubleSpace (d :: (m'' ++ t))) from rfl] at h
      rcases Bool.or_eq_false_iff.mp h with ⟨h1, h2⟩
      rw [show hasDoubleSpace (c :: d :: m'') =
            ((c = ' ' && d = ' ') || hasDoubleSpace (d :: m'')) from rfl]
      rw [h1, ih h2]
      rfl

/-- `stripEnds l` is a prefix of `l.dropWhile isSpaceC` (explicit witness). -/
theorem stripEnds_pref (l : List Char) :
    ∃ w, stripEnds l ++ w = l.dropWhile isSpaceC := by
  obtain ⟨u, hu⟩ := dropWhile_is_suffix isSpaceC (l.dropWhile isSpaceC).reverse
  refine ⟨u.reverse, ?_⟩
  have := congrArg List.reverse hu
  simpa [stripEnds] using this

theorem stripEnds_head (l : List Char) (c : Char)
    (h : (stripEnds l).head? = some c) : isSpaceC c = false := by
  obtain ⟨w, hw⟩ := stripEnds_pref l
  cases hse : stripEnds l with
  | nil => rw [hse] at h; simp at h
  | cons d rest =>
    rw [hse] at h
    simp only [List.head?_cons, Option.some_inj] at h
    rw [hse] at hw
    have hh : (l.dropWhile isSpaceC).head? = some d := by
      rw [← hw]; rfl
    rw [← h]
    exact dropWhile_head_false isSpaceC l d hh

theorem stripEnds_last (l : List Char) (c : Char)
    (h : (stripEnds l).getLast? = some c) : isSpaceC c = false := by
  have hrev : (stripEnds l).getLast? =
      (((l.dropWhile isSpaceC).reverse).dropWhile isSpaceC).head? := by
    rw [show stripEnds l =
          (((l.dropWhile isSpaceC).reverse).dropWhile isSpaceC).reverse from rfl]
    exact getLast?_rev _
  rw [hrev] at h
  exact dropWhile_head_false isSpaceC _ c h

theorem stripEnds_no_double (l : List Char) (h : hasDoubleSpace l = false) :
    hasDoubleSpace (stripEnds l) = false := by
  obtain ⟨u, hu⟩ := dropWhile_is_suffix isSpaceC l
  obtain ⟨w, hw⟩ := stripEnds_pref l
  have hA : hasDoubleSpace (l.dropWhile isSpaceC) = false := by
    apply hasDouble_suffix u
    rw [hu]; exact h
  apply hasDouble_of_prefix (stripEnds l) w
  rw [hw]; exact hA

theorem stripEnds_mem (l : List Char) (c : Char) (h : c ∈ stripEnds l) : c ∈ l := by
  obtain ⟨u, hu⟩ := dropWhile_is_suffix isSpaceC l
  obtain ⟨w, hw⟩ := stripEnds_pref l
  have h1 : c ∈ l.dropWhile isSpaceC := by
    rw [← hw]; exact List.mem_append_left _ h
  rw [← hu]
  exact List.mem_append_right _ h1

theorem wsGo_false_eq_self (o : List Char)
    (hbl : ∀ c ∈ o, isSpaceC c = true → c = ' ')
    (hnd : hasDoubleSpace o = false) : wsGo false o = o := by
  have H : ∀ n (o : List Char), o.length ≤ n →
      (∀ c ∈ o, isSpaceC c = true → c = ' ') →
      hasDoubleSpace o = false → wsGo false o = o := by
    intro n
    induction n with
    | zero =>
      intro o hlen _ _
      have ho : o = [] := List.length_eq_zero.mp (Nat.le_zero.mp hlen)
      rw [ho]; rfl
    | succ n ih =>
      intro o hlen hbl hnd
      cases o with
      | nil => rfl
      | cons c cs =>
        by_cases hc : isSpaceC c = true
        · have hcb : c = ' ' := hbl c (List.mem_cons_self c cs) hc
          cases cs with
          | nil =>
            rw [show wsGo false [c] = ' ' :: wsGo true [] by simp [wsGo, hc]]
            rw [hcb]; rfl
          | cons d ds =>
            have hd : isSpaceC d = false := by
              by_contra hdc
              have hd2 : isSpaceC d = true := by simpa using hdc
              have hdb : d = ' ' := hbl d (by simp) hd2
              rw [show hasDoubleSpace (c :: d :: ds) =
                    ((c = ' ' && d = ' ') || hasDoubleSpace (d :: ds)) from rfl] at hnd
              rw [hcb, hdb] at hnd
              simp at hnd
            have hrec : wsGo false ds = ds := by
              apply ih ds (by simp at hlen ⊢; omega)
              · intro x hx hsx; exact hbl x (by simp [hx]) hsx
              · apply hasDouble_suffix [c, d]
                simpa using hnd
            rw [show wsGo false (c :: d :: ds) = ' ' :: wsGo true (d :: ds) by
              simp [wsGo, hc]]
            rw [show wsGo true (d :: ds) = d :: wsGo false ds by simp [wsGo, hd]]
            rw [hrec, hcb]
        · have hc2 : isSpaceC c = false := by simpa using hc
          have hrec : wsGo false cs = cs := by
            apply ih cs (by simp at hlen ⊢; omega)
            · intro x hx hsx; exact hbl x (by simp [hx]) hsx
            · exact hasDouble_suffix [c] cs (by simpa using hnd)
          rw [show wsGo false (c :: cs) = c :: wsGo false cs by simp [wsGo, hc2]]
          rw [hrec]
  exact H o.length o le_rfl hbl hnd

theorem stripEnds_eq_self (o : List Char)
    (h1 : ∀ c, o.head? = some c → isSpaceC c = false)
    (h2 : ∀ c, o.getLast? = some c → isSpaceC c = false) :
    stripEnds o = o := by
  have hdw : o.dropWhile isSpaceC = o := by
    cases o with
    | nil => rfl
    | cons c cs =>
      have hc := h1 c rfl
      simp [List.dropWhile, hc]
  rw [show stripEnds o =
        ((o.dropWhile isSpaceC).reverse.dropWhile isSpaceC).reverse from rfl, hdw]
  have hrev : o.reverse.dropWhile isSpaceC = o.reverse := by
    cases hor : o.reverse with
    | nil => rfl
    | cons c cs =>
      have h3 := getLast?_rev o.reverse
      rw [List.reverse_reverse] at h3
      have hl : o.getLast? = some c := by rw [h3, hor]; rfl
      have hc := h2 c hl
      simp [List.dropWhile, hc]
  rw [hrev, List.reverse_reverse]

/-- Claim C6: the output of `normalize_whitespace` never contains two adjacent
spaces, does not start or end with whitespace, and the function is
idempotent. -/
theorem normalize_whitespace_spec (s : List Char) :
    hasDoubleSpace (normalize_whitespace s) = false ∧
    startsOrEndsSpace (normalize_whitespace s) = false ∧
    normalize_whitespace (normalize_whitespace s) = normalize_whitespace s := by
  have hnd : hasDoubleSpace (normalize_whitespace s) = false :=
    stripEnds_no_double _ (wsGo_no_double s false)
  have hhead : ∀ c, (normalize_whitespace s).head? = some c → isSpaceC c = false :=
    fun c h => stripEnds_head _ c h
  have hlast : ∀ c, (normalize_whitespace s).getLast? = some c → isSpaceC c = false :=
    fun c h => stripEnds_last _ c h
  refine ⟨hnd, ?_, ?_⟩
  · rw [startsOrEndsSpace]
    refine Bool.or_eq_false_iff.mpr ⟨?_, ?_⟩
    · cases hh : (normalize_whitespace s).head? with
      | none => rfl
      | some c => simpa using hhead c hh
    · cases hh : (normalize_whitespace s).getLast? with
      | none => rfl
      | some c => simpa using hlast c hh
  · have hbl : ∀ c ∈ normalize_whitespace s, isSpaceC c = true → c = ' ' := by
      intro c hc hsc
      exact wsGo_only_blank s false c (stripEnds_mem _ c hc) hsc
    have hfix : wsGo false (normalize_whitespace s) = normalize_whitespace s :=
      wsGo_false_eq_self _ hbl hnd
    rw [show normalize_whitespace (normalize_whitespace s) =
          stripEnds (wsGo false (normalize_whitespace s)) from rfl, hfix]
    exact stripEnds_eq_self _ hhead hlast

/-! ### `extract_hashtags` / `extract_mentions` :
`re.findall(r'#\w+', text)` and `re.findall(r'@\w+', text)`

Both patterns are a literal marker character followed by a greedy nonempty
`\w+` run; there is no word-boundary requirement before the marker. -/

/-- `findall` scan for marker + `\w+`. -/
def tagGoF (m : Char) : Nat → List Char → List (List Char)
  | 0, _ => []
  | _ + 1, [] => []
  | fuel + 1, c :: cs =>
    if c = m then
      match cs.takeWhile isWordChar with
      | [] => tagGoF m fuel cs
      | d :: w => (m :: d :: w) :: tagGoF m fuel (cs.dropWhile isWordChar)
    else tagGoF m fuel cs

/-- `extract_hashtags` from the source. -/
def extract_hashtags (t : List Char) : List (List Char) := tagGoF '#' t.length t

/-- `extract_mentions` from the source. -/
def extract_mentions (t : List Char) : List (List Char) := tagGoF '@' t.length t

/-- The first character (if any) is not a word character. -/
def headNonWord : List Char → Bool
  | [] => true
  | c :: _ => !isWordChar c

theorem takeWhile_all_append (p : Char → Bool) (w v : List Char)
    (hw : ∀ c ∈ w, p c = true) (hv : ∀ c, v.head? = some c → p c = false) :
    (w ++ v).takeWhile p = w ∧ (w ++ v).dropWhile p = v := by
  induction w with
  | nil =>
    cases v with
    | nil => exact ⟨rfl, rfl⟩
    | cons c cs =>
      have hc := hv c rfl
      constructor <;> simp [List.takeWhile, List.dropWhile, hc]
  | cons d w' ih =>
    have hd : p d = true := hw d (List.mem_cons_self d w')
    have ih2 := ih (fun c hc => hw c (List.mem_cons_of_mem d hc))
    constructor
    · rw [show ((d :: w') ++ v) = d :: (w' ++ v) from rfl]
      simp [List.takeWhile, hd, ih2.1]
    · rw [show ((d :: w') ++ v) = d :: (w' ++ v) from rfl]
      simp [List.dropWhile, hd, ih2.2]

theorem dropWhile_append_marker (m : Char) (hm : isWordChar m = false)
    (u rest : List Char) :
    (u ++ m :: rest).dropWhile isWordChar =
      (u.dropWhile isWordChar) ++ m :: rest := by
  induction u with
  | nil => simp [List.dropWhile, hm]
  | cons c u' ih =>
    by_cases hc : isWordChar c = true
    · rw [show ((c :: u') ++ m :: rest) = c :: (u' ++ m :: rest) from rfl]
      simp [List.dropWhile, hc, ih]
    · have hc2 : isWordChar c = false := by simpa using hc
      rw [show ((c :: u') ++ m :: rest) = c :: (u' ++ m :: rest) from rfl]
      simp [List.dropWhile, hc2]

theorem dropWhile_length_le (p : Char → Bool) (l : List Char) :
    (l.dropWhile p).length ≤ l.length := by
  induction l with
  | nil => simp [List.dropWhile]
  | cons c cs ih =>
    by_cases hc : p c = true
    · rw [show (c :: cs).dropWhile p = cs.dropWhile p by simp [List.dropWhile, hc]]
      simp
      omega
    · have hc2 : p c = false := by simpa using hc
      rw [show (c :: cs).dropWhile p = c :: cs by simp [List.dropWhile, hc2]]

theorem tagGoF_cons (m : Char) (fuel : Nat) (c : Char) (cs : List Char) :
    tagGoF m (fuel + 1) (c :: cs) =
      if c = m then
        (match cs.takeWhile isWordChar with
         | [] => tagGoF m fuel cs
         | d :: w => (m :: d :: w) :: tagGoF m fuel (cs.dropWhile isWordChar))
      else tagGoF m fuel cs := rfl

theorem tag_marker_found (m : Char) (hm : isWordChar m = false) :
    ∀ fuel (u w v : List Char), (u ++ m :: (w ++ v)).length ≤ fuel →
      (∀ c ∈ w, isWordChar c = true) → w ≠ [] → headNonWord v = true →
      (m :: w) ∈ tagGoF m fuel (u ++ m :: (w ++ v)) := by
  intro fuel
  induction fuel with
  | zero =>
    intro u w v hlen _ _ _
    simp at hlen
  | succ fuel ih =>
    intro u w v hlen hw hne hv
    have hv2 : ∀ c, v.head? = some c → isWordChar c = false := by
      intro c hc
      cases v with
      | nil => simp at hc
      | cons d ds =>
        simp only [List.head?_cons, Option.some_inj] at hc
        rw [← hc]
        simpa [headNonWord] using hv
    cases u with
    | nil =>
      cases w with
      | nil => exact absurd rfl hne
      | cons d w' =>
        rw [show (([] : List Char) ++ m :: ((d :: w') ++ v)) =
              m :: ((d :: w') ++ v) from rfl]
        rw [tagGoF_cons, if_pos rfl]
        have htw := (takeWhile_all_append isWordChar (d :: w') v hw hv2).1
        rw [show ((d :: w') ++ v : List Char) = d :: (w' ++ v) from rfl] at htw ⊢
        rw [htw]
        exact List.mem_cons_self _ _
    | cons c u' =>
      rw [show ((c :: u') ++ m :: (w ++ v)) = c :: (u' ++ m :: (w ++ v)) from rfl]
      have hlen' : (u' ++ m :: (w ++ v)).length ≤ fuel := by
        simp at hlen ⊢
        omega
      rw [tagGoF_cons]
      by_cases hc : c = m
      · rw [if_pos hc]
        cases hrun : (u' ++ m :: (w ++ v)).takeWhile isWordChar with
        | nil => exact ih u' w v hlen' hw hne hv
        | cons d w2 =>
          apply List.mem_cons_of_mem
          rw [dropWhile_append_marker m hm u' (w ++ v)]
          apply ih (u'.dropWhile isWordChar) w v ?_ hw hne hv
          have hdl := dropWhile_length_le isWordChar u'
          simp at hlen' ⊢
          omega
      · rw [if_neg hc]
        exact ih u' w v hlen' hw hne hv

/-- Claim C10: `extract_mentions` picks up `@company` inside the email in
`"info@company.com"`, and in general any marker (`#` for hashtags, `@` for
mentions) followed by a nonempty word-character run yields that match
regardless of the surrounding context. -/
theorem mentions_and_hashtags_unbounded (u w v : List Char)
    (hw : ∀ c ∈ w, isWordChar c = true) (hne : w ≠ [])
    (hv : headNonWord v = true) :
    extract_mentions (str "info@company.com") = [str "@company"] ∧
    ('#' :: w) ∈ extract_hashtags (u ++ '#' :: (w ++ v)) ∧
    ('@' :: w) ∈ extract_mentions (u ++ '@' :: (w ++ v)) := by
  refine ⟨by decide, ?_, ?_⟩
  · exact tag_marker_found '#' (by decide) _ u w v le_rfl hw hne hv
  · exact tag_marker_found '@' (by decide) _ u w v le_rfl hw hne hv

/-- Witness for C10 at a concrete input with surrounding word characters. -/
theorem mentions_and_hashtags_unbounded_witness :
    extract_mentions (str "info@company.com") = [str "@company"] ∧
    ('#' :: str "tag") ∈ extract_hashtags (str "ab" ++ '#' :: (str "tag" ++ str "!")) ∧
    ('@' :: str "tag") ∈ extract_mentions (str "ab" ++ '@' :: (str "tag" ++ str "!")) :=
  mentions_and_hashtags_unbounded (str "ab") (str "tag") (str "!")
    (by decide) (by decide) (by decide)

/-! ### `censor_profanity` :
`for word in words: text = re.compile(re.escape(word), re.IGNORECASE).sub('*' * len(word), text)`

`re.escape` makes each word a literal pattern, so one substitution step is a
left-to-right, non-overlapping, case-insensitive literal search-and-replace;
the loop is a left fold over the word list.  Case folding is modelled as
ASCII lowercasing. -/

/-- ASCII lowercase fold (models `re.IGNORECASE` on the ASCII range). -/
def lowerC (c : Char) : Char :=
  if isUpperC c then Char.ofNat (c.toNat + 32) else c

/-- `w` is a case-insensitive prefix of `s`. -/
def ciPref : List Char → List Char → Bool
  | [], _ => true
  | _ :: _, [] => false
  | w0 :: ws, c :: cs => decide (lowerC w0 = lowerC c) && ciPref ws cs

/-- One substitution step: scan left to right, replacing each
case-insensitive occurrence of `w` by `'*' * len(w)` and restarting after
it; `w` is nonempty here. -/
def censorGoF (w : List Char) : Nat → List Char → List Char
  | 0, s => s
  | _ + 1, [] => []
  | fuel + 1, c :: cs =>
    if ciPref w (c :: cs) then
      List.replicate w.length '*' ++ censorGoF w fuel ((c :: cs).drop w.length)
    else c :: censorGoF w fuel cs

/-- One `pattern.sub('*' * len(word), text)` step.  An empty word gives the
empty pattern, whose zero-width matches insert the empty replacement:
the text is unchanged. -/
def censorWord (w t : List Char) : List Char :=
  match w with
  | [] => t
  | _ :: _ => censorGoF w t.length t

/-- `censor_profanity` from the source: the `for` loop over `words`. -/
def censor_profanity : List Char → List (List Char) → List Char
  | t, [] => t
  | t, w :: ws => censor_profanity (censorWord w t) ws

/-- Specification of one substitution step: the output is obtained from the
input by a left-to-right scan that, at each position, either copies the
character (allowed only when no case-insensitive occurrence of `w` starts
there) or replaces an occurrence of `w` by `w.length` asterisks and
continues after it. -/
inductive CensorRel (w : List Char) : List Char → List Char → Prop
  | nil : CensorRel w [] []
  | skip (c : Char) (cs out : List Char) :
      (∀ m rest, c :: cs = m ++ rest → m.map lowerC ≠ w.map lowerC) →
      CensorRel w cs out → CensorRel w (c :: cs) (c :: out)
  | repl (m rest out : List Char) :
      m.map lowerC = w.map lowerC → CensorRel w rest out →
      CensorRel w (m ++ rest) (List.replicate w.length '*' ++ out)

theorem ciPref_iff (w : List Char) : ∀ s, ciPref w s = true ↔
    ∃ m rest, s = m ++ rest ∧ m.map lowerC = w.map lowerC := by
  induction w with
  | nil =>
    intro s
    constructor
    · intro _
      exact ⟨[], s, rfl, rfl⟩
    · intro _
      rfl
  | cons w0 ws ih =>
    intro s
    cases s with
    | nil =>
      constructor
      · intro h
        simp [ciPref] at h
      · rintro ⟨m, rest, hs, hm⟩
        have hm0 : m = [] := by
          cases m with
          | nil => rfl
          | cons a as => simp at hs
        rw [hm0] at hm
        simp at hm
    | cons c cs =>
      constructor
      · intro h
        rw [show ciPref (w0 :: ws) (c :: cs) =
              (decide (lowerC w0 = lowerC c) && ciPref ws cs) from rfl] at h
        rcases Bool.and_eq_true_iff.mp h with ⟨h1, h2⟩
        obtain ⟨m, rest, hcs, hm⟩ := (ih cs).mp h2
        refine ⟨c :: m, rest, by rw [hcs]; rfl, ?_⟩
        simp only [List.map_cons, List.cons.injEq]
        exact ⟨(of_decide_eq_true h1).symm, hm⟩
      · rintro ⟨m, rest, hs, hm⟩
        cases m with
        | nil => simp at hm
        | cons a as =>
          rw [show ((a :: as) ++ rest) = a :: (as ++ rest) from rfl] at hs
          simp only [List.cons.injEq] at hs
          obtain ⟨hca, hcs⟩ := hs
          simp only [List.map_cons, List.cons.injEq] at hm
          obtain ⟨ha, has⟩ := hm
          rw [show ciPref (w0 :: ws) (c :: cs) =
                (decide (lowerC w0 = lowerC c) && ciPref ws cs) from rfl]
          refine Bool.and_eq_true_iff.mpr ⟨?_, (ih cs).mpr ⟨as, rest, hcs, has⟩⟩
          rw [hca]
          exact decide_eq_true ha.symm

theorem censorGoF_rel (w : List Char) (hw : w ≠ []) :
    ∀ fuel t, t.length ≤ fuel → CensorRel w t (censorGoF w fuel t) := by
  intro fuel
  induction fuel with
  | zero =>
    intro t hlen
    have ht : t = [] := List.length_eq_zero.mp (Nat.le_zero.mp hlen)
    rw [ht]
    exact CensorRel.nil
  | succ fuel ih =>
    intro t hlen
    cases t with
    | nil => exact CensorRel.nil
    | cons c cs =>
      by_cases hp : ciPref w (c :: cs) = true
      · obtain ⟨m, rest, hs, hm⟩ := (ciPref_iff w (c :: cs)).mp hp
        have hml : m.length = w.length := by
          have := congrArg List.length hm
          simpa using this
        have hdrop : (c :: cs).drop w.length = rest := by
          rw [hs, ← hml]
          exact List.drop_left m rest
        rw [show censorGoF w (fuel + 1) (c :: cs) =
              List.replicate w.length '*' ++
                censorGoF w fuel ((c :: cs).drop w.length) by
          simp [censorGoF, hp]]
        rw [hdrop, hs]
        apply CensorRel.repl m rest _ hm
        apply ih
        have h1 : (c :: cs).length = m.length + rest.length := by
          rw [hs]; simp
        have h2 : 1 ≤ w.length := by
          cases w with
          | nil => exact absurd rfl hw
          | cons a as => simp
        simp only [List.length_cons] at hlen h1
        omega
      · rw [show censorGoF w (fuel + 1) (c :: cs) = c :: censorGoF w fuel cs by
          simp [censorGoF, hp]]
        apply CensorRel.skip
        · intro m rest hs hm
          exact hp ((ciPref_iff w (c :: cs)).mpr ⟨m, rest, hs, hm⟩)
        · apply ih
          simp only [List.length_cons] at hlen
          omega

theorem censor_rel (w t : List Char) (hw : w ≠ []) :
    CensorRel w t (censorWord w t) := by
  cases w with
  | nil => exact absurd rfl hw
  | cons c cs => exact censorGoF_rel (c :: cs) hw t.length t le_rfl

/-- Claim C5 (counterexample to the claim as stated): with text `"aaa"` and
word list `["aa"]` there is an exact occurrence of `"aa"` starting at
index 1 (witnessed by `ciPref` on `drop 1`), yet the output is `"**a"`, so
that occurrence is not replaced by a run of two asterisks — overlapping
occurrences are skipped by the non-overlapping scan. -/
theorem censor_overlap_counterexample :
    censor_profanity (str "aaa") [str "aa"] = str "**a" ∧
    ciPref (str "aa") ((str "aaa").drop 1) = true ∧
    (censor_profanity (str "aaa") [str "aa"]).drop 1 ≠ str "**" := by
  refine ⟨by decide, by decide, by decide⟩

/-- Claim C5 (amended): `censor_profanity` is the left fold of the per-word
substitution over the caller's word list, and each per-word substitution
replaces exactly the occurrences found by the engine's left-to-right
non-overlapping scan (each matched occurrence becomes `len(word)`
asterisks; a character is copied unchanged only where no occurrence
starts). -/
theorem censor_profanity_spec (t : List Char) (ws : List (List Char)) :
    censor_profanity t ws = ws.foldl (fun acc w => censorWord w acc) t ∧
    ∀ (w u : List Char), w ≠ [] → CensorRel w u (censorWord w u) := by
  constructor
  · induction ws generalizing t with
    | nil => rfl
    | cons w ws ih => exact ih (censorWord w t)
  · intro w u hw
    exact censor_rel w u hw

/-- Witness for C5 at the spec's own censoring scenario. -/
theorem censor_profanity_spec_witness :
    censor_profanity (str "kata badword dan badword lainnya") [str "badword"] =
      [str "badword"].foldl (fun acc w => censorWord w acc)
        (str "kata badword dan badword lainnya") ∧
    (str "badword" ≠ []) ∧
    CensorRel (str "badword") (str "no hit here")
      (censorWord (str "badword") (str "no hit here")) :=
  ⟨(censor_profanity_spec (str "kata badword dan badword lainnya")
      [str "badword"]).1,
   by decide,
   (censor_profanity_spec (str "kata badword dan badword lainnya")
      [str "badword"]).2 (str "badword") (str "no hit here") (by decide)⟩

/-! ### `extract_dates` : findall of the date pattern
(`\b`, 1-2 digits, separator, 1-2 digits, separator, 4 digits, `\b`)

Note the two separator classes (each a dash or a slash) are independent:
nothing in the pattern forces the second separator to equal the first.  The greedy `\d{1,2}`
repetitions backtrack in engine order (2,2), (2,1), (1,2), (1,1).  The
leading `\b` sits before a digit, so it requires the previous character to be
a non-word character (or the start of the text); the trailing `\b` sits after
a digit, so it requires the next character to be a non-word character (or
the end of the text). -/

/-- The separator class: a dash or a slash. -/
def sepOk (c : Char) : Bool := c = '-' || c = '/'

/-- Trailing `\b` after a digit: next character non-word, or end of input. -/
def endBoundary : List Char → Bool
  | [] => true
  | c :: _ => !isWordChar c

/-- One backtracking attempt `\d` times n1, separator, `\d` times n2,
separator, `\d` times 4, trailing boundary, at the current position;
returns (matched substring, rest). -/
def tryDateCombo (s : List Char) (n1 n2 : Nat) : Option (List Char × List Char) :=
  match takeDigitsN s n1 with
  | none => none
  | some (d1, r1) =>
    match r1 with
    | [] => none
    | s1 :: r2 =>
      if sepOk s1 then
        match takeDigitsN r2 n2 with
        | none => none
        | some (d2, r3) =>
          match r3 with
          | [] => none
          | s2 :: r4 =>
            if sepOk s2 then
              match takeDigitsN r4 4 with
              | none => none
              | some (y, rest) =>
                if endBoundary rest then
                  some (d1 ++ s1 :: (d2 ++ s2 :: y), rest)
                else none
            else none
      else none

/-- The whole date pattern at the current position, given the wordness of the
previous character (`pW`); the leading `\b` plus `\d` force `pW = false`. -/
def matchDateAt (pW : Bool) (s : List Char) : Option (List Char × List Char) :=
  if pW then none
  else
    match tryDateCombo s 2 2 with
    | some r => some r
    | none =>
      match tryDateCombo s 2 1 with
      | some r => some r
      | none =>
        match tryDateCombo s 1 2 with
        | some r => some r
        | none => tryDateCombo s 1 1

/-- `findall` scan for dates, threading the previous character's wordness. -/
def datesGoF : Nat → Bool → List Char → List (List Char)
  | 0, _, _ => []
  | _ + 1, _, [] => []
  | fuel + 1, pW, c :: cs =>
    match matchDateAt pW (c :: cs) with
    | some (m, rest) => m :: datesGoF fuel true rest
    | none => datesGoF fuel (isWordChar c) cs

/-- `extract_dates` from the source. -/
def extract_dates (t : List Char) : List (List Char) := datesGoF t.length false t

/-- The lexical shape actually matched by the date pattern: 1–2 digits, a
separator, 1–2 digits, a separator (chosen independently), 4 digits. -/
def DateShape (m : List Char) : Prop :=
  ∃ d1 s1 d2 s2 y,
    m = d1 ++ s1 :: (d2 ++ s2 :: y) ∧
    d1.all isDigitC = true ∧ 1 ≤ d1.length ∧ d1.length ≤ 2 ∧
    sepOk s1 = true ∧
    d2.all isDigitC = true ∧ 1 ≤ d2.length ∧ d2.length ≤ 2 ∧
    sepOk s2 = true ∧
    y.all isDigitC = true ∧ y.length = 4

/-- Specification of the date `findall`: a left-to-right scan that copies a
position only when no word-edge-bounded date-shaped occurrence starts there,
and otherwise emits the occurrence and continues after it. -/
inductive DatesScan : Bool → List Char → List (List Char) → Prop
  | nil (pW : Bool) : DatesScan pW [] []
  | skip (pW : Bool) (c : Char) (cs : List Char) (out : List (List Char)) :
      (pW = true ∨
        ∀ m rest, c :: cs = m ++ rest →
          ¬(DateShape m ∧ endBoundary rest = true)) →
      DatesScan (isWordChar c) cs out → DatesScan pW (c :: cs) out
  | found (m rest : List Char) (out : List (List Char)) :
      DateShape m → endBoundary rest = true →
      DatesScan true rest out → DatesScan false (m ++ rest) (m :: out)

theorem takeDigitsN_sound : ∀ (n : Nat) (s d r : List Char),
    takeDigitsN s n = some (d, r) →
    s = d ++ r ∧ d.length = n ∧ d.all isDigitC = true := by
  intro n
  induction n with
  | zero =>
    intro s d r h
    rw [show takeDigitsN s 0 = some ([], s) by cases s <;> rfl] at h
    simp only [Option.some_inj, Prod.mk.injEq] at h
    obtain ⟨h1, h2⟩ := h
    rw [← h1, ← h2]
    exact ⟨rfl, rfl, rfl⟩
  | succ n ih =>
    intro s d r h
    cases s with
    | nil => simp [takeDigitsN] at h
    | cons c cs =>
      by_cases hc : isDigitC c = true
      · rw [show takeDigitsN (c :: cs) (n + 1) =
              (match takeDigitsN cs n with
               | some (d2, r2) => some (c :: d2, r2)
               | none => none) by simp [takeDigitsN, hc]] at h
        cases hrec : takeDigitsN cs n with
        | none => rw [hrec] at h; simp at h
        | some p =>
          obtain ⟨d2, r2⟩ := p
          rw [hrec] at h
          simp only [Option.some_inj, Prod.mk.injEq] at h
          obtain ⟨h1, h2⟩ := h
          obtain ⟨hs, hl, hd⟩ := ih cs d2 r2 hrec
          rw [← h1, ← h2]
          refine ⟨by rw [hs]; rfl, by simp [hl], ?_⟩
          simp [hc, hd]
      · have hc2 : isDigitC c = false := by simpa using hc
        simp [takeDigitsN, hc2] at h

theorem tryDateCombo_some (s : List Char) (n1 n2 : Nat) (m rest : List Char)
    (hn1a : 1 ≤ n1) (hn1b : n1 ≤ 2) (hn2a : 1 ≤ n2) (hn2b : n2 ≤ 2)
    (h : tryDateCombo s n1 n2 = some (m, rest)) :
    s = m ++ rest ∧ DateShape m ∧ endBoundary rest = true ∧ 1 ≤ m.length := by
  rw [tryDateCombo] at h
  cases hd1 : takeDigitsN s n1 with
  | none => rw [hd1] at h; simp at h
  | some p1 =>
    obtain ⟨d1, r1⟩ := p1
    rw [hd1] at h
    dsimp only at h
    obtain ⟨hs1, hl1, hall1⟩ := takeDigitsN_sound n1 s d1 r1 hd1
    cases r1 with
    | nil => simp at h
    | cons s1 r2 =>
      dsimp only at h
      by_cases hsep1 : sepOk s1 = true
      · rw [if_pos hsep1] at h
        cases hd2 : takeDigitsN r2 n2 with
        | none => rw [hd2] at h; simp at h
        | some p2 =>
          obtain ⟨d2, r3⟩ := p2
          rw [hd2] at h
          dsimp only at h
          obtain ⟨hs2, hl2, hall2⟩ := takeDigitsN_sound n2 r2 d2 r3 hd2
          cases r3 with
          | nil => simp at h
          | cons s2 r4 =>
            dsimp only at h
            by_cases hsep2 : sepOk s2 = true
            · rw [if_pos hsep2] at h
              cases hd3 : takeDigitsN r4 4 with
              | none => rw [hd3] at h; simp at h
              | some p3 =>
                obtain ⟨y, rest2⟩ := p3
                rw [hd3] at h
                dsimp only at h
                obtain ⟨hs3, hl3, hall3⟩ := takeDigitsN_sound 4 r4 y rest2 hd3
                by_cases hend : endBoundary rest2 = true
                · rw [if_pos hend] at h
                  simp only [Option.some_inj, Prod.mk.injEq] at h
                  obtain ⟨hm, hr⟩ := h
                  subst hr
                  refine ⟨?_, ?_, hend, ?_⟩
                  · rw [hs1, hs2, hs3, ← hm]
                    simp
                  · exact ⟨d1, s1, d2, s2, y, hm.symm, hall1, hn1a.trans_eq hl1.symm,
                      hl1.le.trans hn1b, hsep1, hall2, hn2a.trans_eq hl2.symm,
                      hl2.le.trans hn2b, hsep2, hall3, hl3⟩
                  · rw [← hm]
                    simp
                    omega
                · rw [if_neg hend] at h
                  simp at h
            · rw [if_neg hsep2] at h
              simp at h
      · rw [if_neg hsep1] at h
        simp at h

theorem tryDateCombo_complete (d1 d2 y rest : List Char) (s1 s2 : Char)
    (hall1 : d1.all isDigitC = true) (hall2 : d2.all isDigitC = true)
    (hall3 : y.all isDigitC = true) (hl3 : y.length = 4)
    (hsep1 : sepOk s1 = true) (hsep2 : sepOk s2 = true)
    (hend : endBoundary rest = true) :
    tryDateCombo (d1 ++ s1 :: (d2 ++ s2 :: (y ++ rest))) d1.length d2.length =
      some (d1 ++ s1 :: (d2 ++ s2 :: y), rest) := by
  rw [tryDateCombo]
  rw [takeDigitsN_append d1 (s1 :: (d2 ++ s2 :: (y ++ rest))) hall1]
  dsimp only
  rw [if_pos hsep1]
  rw [takeDigitsN_append d2 (s2 :: (y ++ rest)) hall2]
  dsimp only
  rw [if_pos hsep2]
  rw [show takeDigitsN (y ++ rest) 4 = some (y, rest) by
    rw [← hl3]; exact takeDigitsN_append y rest hall3]
  dsimp only
  rw [if_pos hend]

theorem matchDateAt_some (pW : Bool) (s m rest : List Char)
    (h : matchDateAt pW s = some (m, rest)) :
    pW = false ∧ s = m ++ rest ∧ DateShape m ∧ endBoundary rest = true ∧
      1 ≤ m.length := by
  by_cases hpw : pW = true
  · rw [matchDateAt, if_pos hpw] at h
    simp at h
  · have hpw2 : pW = false := by simpa using hpw
    refine ⟨hpw2, ?_⟩
    rw [matchDateAt, if_neg hpw] at h
    cases h22 : tryDateCombo s 2 2 with
    | some r =>
      rw [h22] at h
      dsimp only at h
      obtain rfl := Option.some.inj h
      exact tryDateCombo_some s 2 2 m rest (by omega) (by omega) (by omega)
        (by omega) h22
    | none =>
      rw [h22] at h
      dsimp only at h
      cases h21 : tryDateCombo s 2 1 with
      | some r =>
        rw [h21] at h
        dsimp only at h
        obtain rfl := Option.some.inj h
        exact tryDateCombo_some s 2 1 m rest (by omega) (by omega) (by omega)
          (by omega) h21
      | none =>
        rw [h21] at h
        dsimp only at h
        cases h12 : tryDateCombo s 1 2 with
        | some r =>
          rw [h12] at h
          dsimp only at h
          obtain rfl := Option.some.inj h
          exact tryDateCombo_some s 1 2 m rest (by omega) (by omega) (by omega)
            (by omega) h12
        | none =>
          rw [h12] at h
          dsimp only at h
          exact tryDateCombo_some s 1 1 m rest (by omega) (by omega) (by omega)
            (by omega) h

theorem matchDateAt_none (s m rest : List Char) (h : matchDateAt false s = none)
    (hm : DateShape m) (hend : endBoundary rest = true) (hs : s = m ++ rest) :
    False := by
  obtain ⟨d1, s1, d2, s2, y, hmeq, hall1, h1a, h1b, hsep1, hall2, h2a, h2b,
    hsep2, hall3, hl3⟩ := hm
  have hfull : s = d1 ++ s1 :: (d2 ++ s2 :: (y ++ rest)) := by
    rw [hs, hmeq]
    simp
  have hc := tryDateCombo_complete d1 d2 y rest s1 s2 hall1 hall2 hall3 hl3
    hsep1 hsep2 hend
  rw [← hfull, ← hmeq] at hc
  rw [matchDateAt, if_neg (by simp)] at h
  cases h22 : tryDateCombo s 2 2 with
  | some r => rw [h22] at h; simp at h
  | none =>
    rw [h22] at h
    dsimp only at h
    cases h21 : tryDateCombo s 2 1 with
    | some r => rw [h21] at h; simp at h
    | none =>
      rw [h21] at h
      dsimp only at h
      cases h12 : tryDateCombo s 1 2 with
      | some r => rw [h12] at h; simp at h
      | none =>
        rw [h12] at h
        dsimp only at h
        rcases (show d1.length = 1 ∨ d1.length = 2 by omega) with e1 | e1 <;>
          rcases (show d2.length = 1 ∨ d2.length = 2 by omega) with e2 | e2 <;>
          rw [e1, e2] at hc
        · rw [h] at hc; simp at hc
        · rw [h12] at hc; simp at hc
        · rw [h21] at hc; simp at hc
        · rw [h22] at hc; simp at hc

theorem datesGoF_scan : ∀ (fuel : Nat) (pW : Bool) (t : List Char),
    t.length ≤ fuel → DatesScan pW t (datesGoF fuel pW t) := by
  intro fuel
  induction fuel with
  | zero =>
    intro pW t hlen
    have ht : t = [] := List.length_eq_zero.mp (Nat.le_zero.mp hlen)
    rw [ht]
    exact DatesScan.nil pW
  | succ fuel ih =>
    intro pW t hlen
    cases t with
    | nil => exact DatesScan.nil pW
    | cons c cs =>
      cases hm : matchDateAt pW (c :: cs) with
      | some p =>
        obtain ⟨m, rest⟩ := p
        obtain ⟨hpw, hs, hshape, hend, hmlen⟩ :=
          matchDateAt_some pW (c :: cs) m rest hm
        rw [show datesGoF (fuel + 1) pW (c :: cs) =
              (match matchDateAt pW (c :: cs) with
               | some (m, rest) => m :: datesGoF fuel true rest
               | none => datesGoF fuel (isWordChar c) cs) from rfl, hm]
        dsimp only
        subst hpw
        rw [hs]
        apply DatesScan.found m rest _ hshape hend
        apply ih true rest
        have hlen2 := congrArg List.length hs
        simp at hlen2 hlen
        omega
      | none =>
        rw [show datesGoF (fuel + 1) pW (c :: cs) =
              (match matchDateAt pW (c :: cs) with
               | some (m, rest) => m :: datesGoF fuel true rest
               | none => datesGoF fuel (isWordChar c) cs) from rfl, hm]
        dsimp only
        apply DatesScan.skip
        · by_cases hpw : pW = true
          · exact Or.inl hpw
          · right
            intro m rest hsplit hcontra
            have hpw2 : pW = false := by simpa using hpw
            rw [hpw2] at hm
            exact matchDateAt_none (c :: cs) m rest hm hcontra.1 hcontra.2 hsplit
        · apply ih
          simp at hlen
          omega

/-- Claim C3 (counterexample to the claim as stated): the two separator
classes of the date pattern are independent, so the mixed-separator string
`"15-08/2024"` IS extracted whole — yet it cannot be written with the same
separator used twice (each of the dash and the slash occurs only once in it),
contradicting the claim's "the same separator again". -/
theorem extract_dates_mixed_sep :
    extract_dates (str "15-08/2024") = [str "15-08/2024"] ∧
    ¬ ∃ (d1 d2 y : List Char) (s : Char), sepOk s = true ∧
        str "15-08/2024" = d1 ++ s :: (d2 ++ s :: y) := by
  refine ⟨by decide, ?_⟩
  rintro ⟨d1, d2, y, s, hs, heq⟩
  have hcount := congrArg (List.count s) heq
  have hsep : s = '-' ∨ s = '/' := by
    rw [sepOk] at hs
    rcases Bool.or_eq_true_iff.mp hs with h | h
    · exact Or.inl (of_decide_eq_true h)
    · exact Or.inr (of_decide_eq_true h)
  rcases hsep with h | h <;> subst h
  · rw [show List.count '-' (str "15-08/2024") = 1 from by decide] at hcount
    simp [List.count_append, List.count_cons] at hcount
    omega
  · rw [show List.count '/' (str "15-08/2024") = 1 from by decide] at hcount
    simp [List.count_append, List.count_cons] at hcount
    omega

/-- Claim C3 (amended): `extract_dates` performs the left-to-right
non-overlapping scan `DatesScan`: it returns, in order, word-edge-bounded
occurrences of the shape 1–2 digits, separator, 1–2 digits, separator,
4 digits — with the two separators chosen *independently* from dash/slash —
and it copies a position only where no such occurrence starts; no semantic
day/month validation is done (`"99-99-9999"` is extracted), and a
mixed-separator token such as `"15-08/2024"` is likewise extracted. -/
theorem extract_dates_spec (t : List Char) :
    DatesScan false t (extract_dates t) ∧
    extract_dates (str "99-99-9999") = [str "99-99-9999"] ∧
    extract_dates (str "15-08/2024") = [str "15-08/2024"] ∧
    extract_dates (str "Event tanggal: 15-08-2024 dan 20/12/2024") =
      [str "15-08-2024", str "20/12/2024"] :=
  ⟨datesGoF_scan t.length false t le_rfl, by decide, by decide, by decide⟩

/-! ### `validate_nik` : `re.match(r'^\d{16}$', nik)` -/

/-- `validate_nik` from the source. -/
def validate_nik (s : List Char) : Bool :=
  match takeDigitsN s 16 with
  | some (_, rest) => endCheck rest
  | none => false

/-! ### `validate_email` :
`re.match(r'^[a-zA-Z0-9._%+-]+@[a-zA-Z0-9.-]+\.[a-zA-Z]{2,}$', email)`

`[A]+` is greedy and `'@' ∉ A`, so the local part is exactly the maximal
A-run and must be followed by `@` (backtracking the run can never expose an
`@`).  The domain `[B]+` backtracks its length `k` downwards looking for the
literal dot; the TLD `[a-zA-Z]{2,}` backtracks its length down to 2 before
the `$` check. -/

/-- `[a-zA-Z]{2,}$` ladder: try TLD lengths `l, l-1, ..., 2`. -/
def lettersEnd (r : List Char) : Nat → Bool
  | 0 => false
  | 1 => false
  | l + 2 => endCheck (r.drop (l + 2)) || lettersEnd r (l + 1)

/-- One attempt of `[B]+\.[a-zA-Z]{2,}$` with B-run length `j`: the next
character must be the literal dot, then the TLD ladder runs. -/
def emailDomStep (r : List Char) (j : Nat) : Bool :=
  match r.drop j with
  | c :: r3 => decide (c = '.') && lettersEnd r3 (r3.takeWhile isAlphaC).length
  | [] => false

/-- `[B]+\.[a-zA-Z]{2,}$` ladder over the B-run length `k, k-1, ..., 1`. -/
def emailDomEnd (r : List Char) : Nat → Bool
  | 0 => false
  | k + 1 => emailDomStep r (k + 1) || emailDomEnd r k

/-- `validate_email` from the source: nonempty greedy A-run (the local
part), the literal `@`, then the domain ladders. -/
def validate_email (s : List Char) : Bool :=
  if (s.takeWhile isLocalA).isEmpty then false
  else
    match s.dropWhile isLocalA with
    | c :: r2 => decide (c = '@') && emailDomEnd r2 (r2.takeWhile isDomB).length
    | [] => false

/-! ### `validate_url` :
`re.match(r'^https?://(?:www\.)?[-a-zA-Z0-9@:%._\+~#=]{1,256}\.[a-zA-Z0-9()]{1,6}\b(?:[-a-zA-Z0-9()@:%_\+.~#?&/=]*)$', url)`

Layers, in engine order: literal `http`; optional `s` (greedy, with
fall-back); literal `://`; optional `www.` (greedy, with fall-back); host
class repeated 1..256 times (greedy ladder) followed by a literal dot; TLD
class repeated 1..6 times (greedy ladder) followed by `\b`; path class
repeated 0.. times (greedy ladder) followed by `$`. -/

/-- `\b` given the wordness of the previous character. -/
def wordBdry (prevWord : Bool) (r : List Char) : Bool :=
  match r with
  | [] => prevWord
  | c :: _ => prevWord != isWordChar c

/-- `[path]*$` ladder: try path lengths `l, l-1, ..., 0`. -/
def c3Desc (r : List Char) : Nat → Bool
  | 0 => endCheck r
  | l + 1 => endCheck (r.drop (l + 1)) || c3Desc r l

/-- One attempt of `[tld]{1,6}\b[path]*$` with TLD length `m1 ≥ 1`: the
last TLD character is at offset `m1 - 1`; check `\b` against what follows,
then the path ladder. -/
def urlTldStep (r4 : List Char) (m1 : Nat) : Bool :=
  match r4.drop (m1 - 1) with
  | c :: rest2 =>
    wordBdry (isWordChar c) rest2 && c3Desc rest2 (rest2.takeWhile isUrlPath).length
  | [] => false

/-- `[tld]{1,6}\b[path]*$` ladder over the TLD length. -/
def urlTldDesc (r4 : List Char) : Nat → Bool
  | 0 => false
  | m + 1 => urlTldStep r4 (m + 1) || urlTldDesc r4 m

/-- TLD part starting just after the host's literal dot. -/
def urlAfterDot (r4 : List Char) : Bool :=
  urlTldDesc r4 (min 6 (r4.takeWhile isUrlTld).length)

/-- One attempt of `[host]{1,256}\.` with host length `j`: the next
character must be the literal dot, then the TLD part. -/
def hostStep (r3 : List Char) (j : Nat) : Bool :=
  match r3.drop j with
  | c :: r4 => decide (c = '.') && urlAfterDot r4
  | [] => false

/-- `[host]{1,256}\.` ladder over the host length. -/
def hostDesc (r3 : List Char) : Nat → Bool
  | 0 => false
  | k + 1 => hostStep r3 (k + 1) || hostDesc r3 k

/-- Host part. -/
def urlHostStart (r3 : List Char) : Bool :=
  hostDesc r3 (min 256 (r3.takeWhile isUrlHost).length)

/-- Optional `www.` with fall-back. -/
def urlWWW (r2 : List Char) : Bool :=
  (match stripPref (str "www.") r2 with
   | some r3 => urlHostStart r3
   | none => false) ||
  urlHostStart r2

/-- Literal `://`. -/
def urlColon (r : List Char) : Bool :=
  match stripPref (str "://") r with
  | some r2 => urlWWW r2
  | none => false

/-- Optional `s` of `https?` with fall-back. -/
def urlScheme2 (r1 : List Char) : Bool :=
  (match r1 with
   | c :: r2 => decide (c = 's') && urlColon r2
   | [] => false) ||
  urlColon r1

/-- `validate_url` from the source. -/
def validate_url (s : List Char) : Bool :=
  match stripPref (str "http") s with
  | some r1 => urlScheme2 r1
  | none => false

/-! #### Append-a-newline transfer lemmas (for C9) -/

theorem takeWhile_append_nl (p : Char → Bool) (hp : p '\n' = false)
    (l : List Char) : (l ++ ['\n']).takeWhile p = l.takeWhile p := by
  induction l with
  | nil => simp [List.takeWhile, hp]
  | cons c cs ih =>
    by_cases hc : p c = true
    · rw [show ((c :: cs) ++ ['\n']) = c :: (cs ++ ['\n']) from rfl]
      simp [List.takeWhile, hc, ih]
    · have hc2 : p c = false := by simpa using hc
      rw [show ((c :: cs) ++ ['\n']) = c :: (cs ++ ['\n']) from rfl]
      simp [List.takeWhile, hc2]

theorem dropWhile_append_nl (p : Char → Bool) (hp : p '\n' = false)
    (l : List Char) : (l ++ ['\n']).dropWhile p = l.dropWhile p ++ ['\n'] := by
  induction l with
  | nil => simp [List.dropWhile, hp]
  | cons c cs ih =>
    by_cases hc : p c = true
    · rw [show ((c :: cs) ++ ['\n']) = c :: (cs ++ ['\n']) from rfl]
      simp [List.dropWhile, hc, ih]
    · have hc2 : p c = false := by simpa using hc
      rw [show ((c :: cs) ++ ['\n']) = c :: (cs ++ ['\n']) from rfl]
      simp [List.dropWhile, hc2]

theorem endCheck_no_nl (r : List Char) (hr : '\n' ∉ r) (h : endCheck r = true) :
    r = [] := by
  cases r with
  | nil => rfl
  | cons c cs =>
    rw [show endCheck (c :: cs) = (decide (c = '\n') && cs.isEmpty) from rfl] at h
    rcases Bool.and_eq_true_iff.mp h with ⟨h1, _⟩
    have hc : c = '\n' := of_decide_eq_true h1
    rw [hc] at hr
    simp at hr

theorem stripPref_sound : ∀ (p s r : List Char), stripPref p s = some r →
    s = p ++ r := by
  intro p
  induction p with
  | nil =>
    intro s r h
    rw [show stripPref [] s = some s from rfl] at h
    simp only [Option.some_inj] at h
    rw [h]
    rfl
  | cons a ps ih =>
    intro s r h
    cases s with
    | nil => cases h
    | cons c cs =>
      rw [show stripPref (a :: ps) (c :: cs) =
            (if c = a then stripPref ps cs else none) from rfl] at h
      by_cases hc : c = a
      · rw [if_pos hc] at h
        rw [hc, ih cs r h]
        rfl
      · rw [if_neg hc] at h
        cases h

theorem stripPref_append (p s r x : List Char) (h : stripPref p s = some r) :
    stripPref p (s ++ x) = some (r ++ x) := by
  rw [stripPref_sound p s r h, List.append_assoc]
  exact stripPref_self p (r ++ x)

theorem takeWhile_length_le (p : Char → Bool) (l : List Char) :
    (l.takeWhile p).length ≤ l.length := by
  induction l with
  | nil => simp [List.takeWhile]
  | cons c cs ih =>
    by_cases hc : p c = true
    · rw [show (c :: cs).takeWhile p = c :: cs.takeWhile p by
        simp [List.takeWhile, hc]]
      simpa using ih
    · have hc2 : p c = false := by simpa using hc
      rw [show (c :: cs).takeWhile p = [] by simp [List.takeWhile, hc2]]
      simp

theorem drop_cons_lt (r : List Char) (j : Nat) (c : Char) (r3 : List Char)
    (h : r.drop j = c :: r3) : j < r.length := by
  by_contra hle
  have hge : r.length ≤ j := by omega
  rw [List.drop_eq_nil_of_le hge] at h
  cases h

theorem endCheck_drop_nl (r : List Char) (j : Nat) (hnl : '\n' ∉ r)
    (hj : j ≤ r.length) (h : endCheck (r.drop j) = true) :
    endCheck ((r ++ ['\n']).drop j) = true := by
  have hnil : r.drop j = [] :=
    endCheck_no_nl _ (fun hm => hnl (List.drop_subset j r hm)) h
  rw [List.drop_append_of_le_length hj, hnil]
  decide

/-- Generic characterisation of a `step (k+1) || D k` ladder with floor 1. -/
theorem ladder_iff (step : Nat → Bool) (D : Nat → Bool)
    (h0 : D 0 = false) (hS : ∀ k, D (k + 1) = (step (k + 1) || D k)) :
    ∀ k, D k = true ↔ ∃ j, 1 ≤ j ∧ j ≤ k ∧ step j = true := by
  intro k
  induction k with
  | zero =>
    rw [h0]
    constructor
    · intro h; cases h
    · rintro ⟨j, h1, h2, _⟩; omega
  | succ k ih =>
    rw [hS k, Bool.or_eq_true_iff]
    constructor
    · rintro (h | h)
      · exact ⟨k + 1, by omega, le_rfl, h⟩
      · obtain ⟨j, h1, h2, h3⟩ := ih.mp h
        exact ⟨j, h1, by omega, h3⟩
    · rintro ⟨j, h1, h2, h3⟩
      rcases Nat.lt_or_ge j (k + 1) with hj | hj
      · exact Or.inr (ih.mpr ⟨j, h1, by omega, h3⟩)
      · have hje : j = k + 1 := by omega
        exact Or.inl (hje ▸ h3)

theorem emailDomEnd_iff (r : List Char) (k : Nat) :
    emailDomEnd r k = true ↔ ∃ j, 1 ≤ j ∧ j ≤ k ∧ emailDomStep r j = true :=
  ladder_iff (emailDomStep r) (emailDomEnd r) rfl (fun _ => rfl) k

theorem urlTldDesc_iff (r : List Char) (k : Nat) :
    urlTldDesc r k = true ↔ ∃ j, 1 ≤ j ∧ j ≤ k ∧ urlTldStep r j = true :=
  ladder_iff (urlTldStep r) (urlTldDesc r) rfl (fun _ => rfl) k

theorem hostDesc_iff (r : List Char) (k : Nat) :
    hostDesc r k = true ↔ ∃ j, 1 ≤ j ∧ j ≤ k ∧ hostStep r j = true :=
  ladder_iff (hostStep r) (hostDesc r) rfl (fun _ => rfl) k

theorem phoneDesc_iff (r : List Char) : ∀ k, phoneDesc r k = true ↔
    ∃ j, 9 ≤ j ∧ j ≤ k ∧ endCheck (r.drop j) = true := by
  intro k
  induction k with
  | zero =>
    rw [show phoneDesc r 0 = false from rfl]
    constructor
    · intro h; cases h
    · rintro ⟨j, h1, h2, _⟩; omega
  | succ k ih =>
    rw [show phoneDesc r (k + 1) =
          (if k + 1 < 9 then false
           else endCheck (r.drop (k + 1)) || phoneDesc r k) from rfl]
    by_cases h9 : k + 1 < 9
    · rw [if_pos h9]
      constructor
      · intro h; cases h
      · rintro ⟨j, h1, h2, _⟩; omega
    · rw [if_neg h9, Bool.or_eq_true_iff]
      constructor
      · rintro (h | h)
        · exact ⟨k + 1, by omega, le_rfl, h⟩
        · obtain ⟨j, h1, h2, h3⟩ := ih.mp h
          exact ⟨j, h1, by omega, h3⟩
      · rintro ⟨j, h1, h2, h3⟩
        rcases Nat.lt_or_ge j (k + 1) with hj | hj
        · exact Or.inr (ih.mpr ⟨j, h1, by omega, h3⟩)
        · have hje : j = k + 1 := by omega
          exact Or.inl (hje ▸ h3)

theorem lettersEnd_iff (r : List Char) : ∀ l, lettersEnd r l = true ↔
    ∃ j, 2 ≤ j ∧ j ≤ l ∧ endCheck (r.drop j) = true := by
  intro l
  induction l with
  | zero =>
    rw [show lettersEnd r 0 = false from rfl]
    constructor
    · intro h; cases h
    · rintro ⟨j, h1, h2, _⟩; omega
  | succ l ih =>
    cases l with
    | zero =>
      rw [show lettersEnd r 1 = false from rfl]
      constructor
      · intro h; cases h
      · rintro ⟨j, h1, h2, _⟩; omega
    | succ l2 =>
      rw [show lettersEnd r (l2 + 2) =
            (endCheck (r.drop (l2 + 2)) || lettersEnd r (l2 + 1)) from rfl,
        Bool.or_eq_true_iff]
      constructor
      · rintro (h | h)
        · exact ⟨l2 + 2, by omega, le_rfl, h⟩
        · obtain ⟨j, h1, h2, h3⟩ := ih.mp h
          exact ⟨j, h1, by omega, h3⟩
      · rintro ⟨j, h1, h2, h3⟩
        rcases Nat.lt_or_ge j (l2 + 2) with hj | hj
        · exact Or.inr (ih.mpr ⟨j, h1, by omega, h3⟩)
        · have hje : j = l2 + 2 := by omega
          exact Or.inl (hje ▸ h3)

theorem c3Desc_iff (r : List Char) : ∀ l, c3Desc r l = true ↔
    ∃ j, j ≤ l ∧ endCheck (r.drop j) = true := by
  intro l
  induction l with
  | zero =>
    rw [show c3Desc r 0 = endCheck r from rfl]
    constructor
    · intro h
      exact ⟨0, le_rfl, by simpa using h⟩
    · rintro ⟨j, h2, h3⟩
      have hj : j = 0 := by omega
      rw [hj] at h3
      simpa using h3
  | succ l ih =>
    rw [show c3Desc r (l + 1) =
          (endCheck (r.drop (l + 1)) || c3Desc r l) from rfl,
      Bool.or_eq_true_iff]
    constructor
    · rintro (h | h)
      · exact ⟨l + 1, le_rfl, h⟩
      · obtain ⟨j, h2, h3⟩ := ih.mp h
        exact ⟨j, by omega, h3⟩
    · rintro ⟨j, h2, h3⟩
      rcases Nat.lt_or_ge j (l + 1) with hj | hj
      · exact Or.inr (ih.mpr ⟨j, by omega, h3⟩)
      · have hje : j = l + 1 := by omega
        exact Or.inl (hje ▸ h3)

/-! #### Appending a newline preserves validator acceptance (C9) -/

theorem wordBdry_append_nl (b : Bool) (l : List Char) :
    wordBdry b (l ++ ['\n']) = wordBdry b l := by
  cases l with
  | nil => cases b <;> decide
  | cons c cs => rfl

theorem c3Desc_transfer (r : List Char) (hnl : '\n' ∉ r)
    (h : c3Desc r (r.takeWhile isUrlPath).length = true) :
    c3Desc (r ++ ['\n']) ((r ++ ['\n']).takeWhile isUrlPath).length = true := by
  rw [takeWhile_append_nl isUrlPath (by decide)]
  obtain ⟨j, h2, h3⟩ := (c3Desc_iff r _).mp h
  apply (c3Desc_iff _ _).mpr
  refine ⟨j, h2, ?_⟩
  have hj : j ≤ r.length := le_trans h2 (takeWhile_length_le _ _)
  exact endCheck_drop_nl r j hnl hj h3

theorem lettersEnd_transfer (r : List Char) (hnl : '\n' ∉ r)
    (h : lettersEnd r (r.takeWhile isAlphaC).length = true) :
    lettersEnd (r ++ ['\n']) ((r ++ ['\n']).takeWhile isAlphaC).length = true := by
  rw [takeWhile_append_nl isAlphaC (by decide)]
  obtain ⟨j, h1, h2, h3⟩ := (lettersEnd_iff r _).mp h
  apply (lettersEnd_iff _ _).mpr
  refine ⟨j, h1, h2, ?_⟩
  have hj : j ≤ r.length := le_trans h2 (takeWhile_length_le _ _)
  exact endCheck_drop_nl r j hnl hj h3

theorem urlTldStep_transfer (r4 : List Char) (j : Nat) (hnl : '\n' ∉ r4)
    (h : urlTldStep r4 j = true) : urlTldStep (r4 ++ ['\n']) j = true := by
  rw [urlTldStep] at h ⊢
  cases hdrop : r4.drop (j - 1) with
  | nil => rw [hdrop] at h; simp at h
  | cons c rest2 =>
    rw [hdrop] at h
    dsimp only at h
    rcases Bool.and_eq_true_iff.mp h with ⟨hb, hc3⟩
    have hjlt : j - 1 < r4.length := drop_cons_lt r4 (j - 1) c rest2 hdrop
    rw [List.drop_append_of_le_length (by omega), hdrop, List.cons_append]
    dsimp only
    have hnl2 : '\n' ∉ rest2 := by
      intro hm
      exact hnl (List.drop_subset (j - 1) r4
        (hdrop ▸ List.mem_cons_of_mem c hm))
    refine Bool.and_eq_true_iff.mpr ⟨?_, c3Desc_transfer rest2 hnl2 hc3⟩
    rw [wordBdry_append_nl]
    exact hb

theorem urlAfterDot_transfer (r4 : List Char) (hnl : '\n' ∉ r4)
    (h : urlAfterDot r4 = true) : urlAfterDot (r4 ++ ['\n']) = true := by
  rw [urlAfterDot, takeWhile_append_nl isUrlTld (by decide)]
  rw [urlAfterDot] at h
  obtain ⟨j, h1, h2, h3⟩ := (urlTldDesc_iff r4 _).mp h
  exact (urlTldDesc_iff _ _).mpr ⟨j, h1, h2, urlTldStep_transfer r4 j hnl h3⟩

theorem hostStep_transfer (r3 : List Char) (j : Nat) (hnl : '\n' ∉ r3)
    (h : hostStep r3 j = true) : hostStep (r3 ++ ['\n']) j = true := by
  rw [hostStep] at h ⊢
  cases hdrop : r3.drop j with
  | nil => rw [hdrop] at h; simp at h
  | cons c r4 =>
    rw [hdrop] at h
    dsimp only at h
    rcases Bool.and_eq_true_iff.mp h with ⟨hdot, hrest⟩
    have hjlt : j < r3.length := drop_cons_lt r3 j c r4 hdrop
    rw [List.drop_append_of_le_length (by omega), hdrop, List.cons_append]
    dsimp only
    have hnl2 : '\n' ∉ r4 := by
      intro hm
      exact hnl (List.drop_subset j r3 (hdrop ▸ List.mem_cons_of_mem c hm))
    exact Bool.and_eq_true_iff.mpr ⟨hdot, urlAfterDot_transfer r4 hnl2 hrest⟩

theorem urlHostStart_transfer (r3 : List Char) (hnl : '\n' ∉ r3)
    (h : urlHostStart r3 = true) : urlHostStart (r3 ++ ['\n']) = true := by
  rw [urlHostStart, takeWhile_append_nl isUrlHost (by decide)]
  rw [urlHostStart] at h
  obtain ⟨j, h1, h2, h3⟩ := (hostDesc_iff r3 _).mp h
  exact (hostDesc_iff _ _).mpr ⟨j, h1, h2, hostStep_transfer r3 j hnl h3⟩

theorem urlWWW_transfer (r2 : List Char) (hnl : '\n' ∉ r2)
    (h : urlWWW r2 = true) : urlWWW (r2 ++ ['\n']) = true := by
  rw [urlWWW] at h
  rw [urlWWW]
  rcases Bool.or_eq_true_iff.mp h with h1 | h1
  · cases hsp : stripPref (str "www.") r2 with
    | none => rw [hsp] at h1; simp at h1
    | some r3 =>
      rw [hsp] at h1
      dsimp only at h1
      apply Bool.or_eq_true_iff.mpr
      left
      rw [stripPref_append _ _ _ _ hsp]
      dsimp only
      apply urlHostStart_transfer r3 ?_ h1
      intro hm
      apply hnl
      rw [stripPref_sound _ _ _ hsp]
      exact List.mem_append_right _ hm
  · exact Bool.or_eq_true_iff.mpr (Or.inr (urlHostStart_transfer r2 hnl h1))

theorem urlColon_transfer (r : List Char) (hnl : '\n' ∉ r)
    (h : urlColon r = true) : urlColon (r ++ ['\n']) = true := by
  rw [urlColon] at h
  rw [urlColon]
  cases hsp : stripPref (str "://") r with
  | none => rw [hsp] at h; simp at h
  | some r2 =>
    rw [hsp] at h
    dsimp only at h
    rw [stripPref_append _ _ _ _ hsp]
    dsimp only
    apply urlWWW_transfer r2 ?_ h
    intro hm
    apply hnl
    rw [stripPref_sound _ _ _ hsp]
    exact List.mem_append_right _ hm

theorem urlScheme2_transfer (r1 : List Char) (hnl : '\n' ∉ r1)
    (h : urlScheme2 r1 = true) : urlScheme2 (r1 ++ ['\n']) = true := by
  rw [urlScheme2.eq_def] at h
  rw [urlScheme2.eq_def]
  rcases Bool.or_eq_true_iff.mp h with h1 | h1
  · cases r1 with
    | nil => simp at h1
    | cons c r2 =>
      dsimp only at h1
      rcases Bool.and_eq_true_iff.mp h1 with ⟨hs, hcol⟩
      apply Bool.or_eq_true_iff.mpr
      left
      rw [List.cons_append]
      dsimp only
      have hnl2 : '\n' ∉ r2 := fun hm => hnl (List.mem_cons_of_mem c hm)
      exact Bool.and_eq_true_iff.mpr ⟨hs, urlColon_transfer r2 hnl2 hcol⟩
  · exact Bool.or_eq_true_iff.mpr (Or.inr (urlColon_transfer r1 hnl h1))

theorem validate_url_nl (s : List Char) (hnl : '\n' ∉ s)
    (h : validate_url s = true) : validate_url (s ++ ['\n']) = true := by
  rw [validate_url] at h
  rw [validate_url]
  cases hsp : stripPref (str "http") s with
  | none => rw [hsp] at h; simp at h
  | some r1 =>
    rw [hsp] at h
    dsimp only at h
    rw [stripPref_append _ _ _ _ hsp]
    dsimp only
    apply urlScheme2_transfer r1 ?_ h
    intro hm
    apply hnl
    rw [stripPref_sound _ _ _ hsp]
    exact List.mem_append_right _ hm

theorem emailDomStep_transfer (r : List Char) (j : Nat) (hnl : '\n' ∉ r)
    (h : emailDomStep r j = true) : emailDomStep (r ++ ['\n']) j = true := by
  rw [emailDomStep] at h ⊢
  cases hdrop : r.drop j with
  | nil => rw [hdrop] at h; simp at h
  | cons c r3 =>
    rw [hdrop] at h
    dsimp only at h
    rcases Bool.and_eq_true_iff.mp h with ⟨hdot, hlet⟩
    have hjlt : j < r.length := drop_cons_lt r j c r3 hdrop
    rw [List.drop_append_of_le_length (by omega), hdrop, List.cons_append]
    dsimp only
    have hnl2 : '\n' ∉ r3 := by
      intro hm
      exact hnl (List.drop_subset j r (hdrop ▸ List.mem_cons_of_mem c hm))
    exact Bool.and_eq_true_iff.mpr ⟨hdot, lettersEnd_transfer r3 hnl2 hlet⟩

theorem emailDomEnd_transfer (r2 : List Char) (hnl : '\n' ∉ r2)
    (h : emailDomEnd r2 (r2.takeWhile isDomB).length = true) :
    emailDomEnd (r2 ++ ['\n']) ((r2 ++ ['\n']).takeWhile isDomB).length = true := by
  rw [takeWhile_append_nl isDomB (by decide)]
  obtain ⟨j, h1, h2, h3⟩ := (emailDomEnd_iff r2 _).mp h
  exact (emailDomEnd_iff _ _).mpr ⟨j, h1, h2, emailDomStep_transfer r2 j hnl h3⟩

theorem validate_email_nl (s : List Char) (hnl : '\n' ∉ s)
    (h : validate_email s = true) : validate_email (s ++ ['\n']) = true := by
  rw [validate_email] at h
  rw [validate_email]
  by_cases he : (s.takeWhile isLocalA).isEmpty = true
  · rw [if_pos he] at h
    cases h
  · rw [if_neg he] at h
    rw [takeWhile_append_nl isLocalA (by decide), if_neg he]
    cases hdw : s.dropWhile isLocalA with
    | nil => rw [hdw] at h; simp at h
    | cons c r2 =>
      rw [hdw] at h
      dsimp only at h
      rcases Bool.and_eq_true_iff.mp h with ⟨hat, hdom⟩
      rw [dropWhile_append_nl isLocalA (by decide), hdw, List.cons_append]
      dsimp only
      have hnl2 : '\n' ∉ r2 := by
        intro hm
        obtain ⟨u, hu⟩ := dropWhile_is_suffix isLocalA s
        apply hnl
        rw [← hu]
        apply List.mem_append_right
        rw [hdw]
        exact List.mem_cons_of_mem c hm
      exact Bool.and_eq_true_iff.mpr ⟨hat, emailDomEnd_transfer r2 hnl2 hdom⟩

theorem phoneTailV_transfer (r : List Char) (hnl : '\n' ∉ r)
    (h : phoneTailV r = true) : phoneTailV (r ++ ['\n']) = true := by
  rw [phoneTailV, takeWhile_append_nl isDigitC (by decide)]
  rw [phoneTailV] at h
  obtain ⟨j, h1, h2, h3⟩ := (phoneDesc_iff r _).mp h
  apply (phoneDesc_iff _ _).mpr
  refine ⟨j, h1, h2, ?_⟩
  have hmin := Nat.min_le_right 12 (r.takeWhile isDigitC).length
  have hrun := takeWhile_length_le isDigitC r
  exact endCheck_drop_nl r j hnl (by omega) h3

theorem validate_phone_id_nl (s : List Char) (hnl : '\n' ∉ s)
    (h : validate_phone_id s = true) : validate_phone_id (s ++ ['\n']) = true := by
  rw [validate_phone_id] at h
  rw [validate_phone_id]
  rcases Bool.or_eq_true_iff.mp h with h1 | h1
  · rcases Bool.or_eq_true_iff.mp h1 with h2 | h2
    · cases hsp : stripPref (str "+62") s with
      | none => rw [hsp] at h2; simp at h2
      | some r =>
        rw [hsp] at h2
        dsimp only at h2
        apply Bool.or_eq_true_iff.mpr
        left
        apply Bool.or_eq_true_iff.mpr
        left
        rw [stripPref_append _ _ _ _ hsp]
        dsimp only
        apply phoneTailV_transfer r ?_ h2
        intro hm
        apply hnl
        rw [stripPref_sound _ _ _ hsp]
        exact List.mem_append_right _ hm
    · cases hsp : stripPref (str "62") s with
      | none => rw [hsp] at h2; simp at h2
      | some r =>
        rw [hsp] at h2
        dsimp only at h2
        apply Bool.or_eq_true_iff.mpr
        left
        apply Bool.or_eq_true_iff.mpr
        right
        rw [stripPref_append _ _ _ _ hsp]
        dsimp only
        apply phoneTailV_transfer r ?_ h2
        intro hm
        apply hnl
        rw [stripPref_sound _ _ _ hsp]
        exact List.mem_append_right _ hm
  · cases hsp : stripPref (str "0") s with
    | none => rw [hsp] at h1; simp at h1
    | some r =>
      rw [hsp] at h1
      dsimp only at h1
      apply Bool.or_eq_true_iff.mpr
      right
      rw [stripPref_append _ _ _ _ hsp]
      dsimp only
      apply phoneTailV_transfer r ?_ h1
      intro hm
      apply hnl
      rw [stripPref_sound _ _ _ hsp]
      exact List.mem_append_right _ hm

theorem validate_nik_nl (s : List Char) (hnl : '\n' ∉ s)
    (h : validate_nik s = true) : validate_nik (s ++ ['\n']) = true := by
  rw [validate_nik] at h
  rw [validate_nik]
  cases h16 : takeDigitsN s 16 with
  | none => rw [h16] at h; simp at h
  | some p =>
    obtain ⟨d, rest⟩ := p
    rw [h16] at h
    dsimp only at h
    obtain ⟨hs, hl, hd⟩ := takeDigitsN_sound 16 s d rest h16
    have hrest : rest = [] := by
      apply endCheck_no_nl rest ?_ h
      intro hm
      apply hnl
      rw [hs]
      exact List.mem_append_right _ hm
    rw [hrest] at hs
    rw [show s ++ ['\n'] = d ++ ['\n'] by rw [hs]; simp]
    rw [show takeDigitsN (d ++ ['\n']) 16 = some (d, ['\n']) by
      rw [← hl]; exact takeDigitsN_append d ['\n'] hd]
    rfl

/-- Claim C9: the `$` anchor also matches just before a final newline, so
each validator accepts any accepted (newline-free) value with a single
trailing newline appended — such inputs are accepted although the whole
string is not an instance of the format; concrete instances for all four
validators included. -/
theorem validators_accept_trailing_newline (s : List Char) (hnl : '\n' ∉ s) :
    (validate_email s = true → validate_email (s ++ ['\n']) = true) ∧
    (validate_phone_id s = true → validate_phone_id (s ++ ['\n']) = true) ∧
    (validate_url s = true → validate_url (s ++ ['\n']) = true) ∧
    (validate_nik s = true → validate_nik (s ++ ['\n']) = true) ∧
    validate_email (str "a@b.co" ++ ['\n']) = true ∧
    validate_phone_id (str "081234567890" ++ ['\n']) = true ∧
    validate_url (str "https://www.example.com" ++ ['\n']) = true ∧
    validate_nik (str "1234567890123456" ++ ['\n']) = true :=
  ⟨validate_email_nl s hnl, validate_phone_id_nl s hnl, validate_url_nl s hnl,
   validate_nik_nl s hnl, by decide, by decide, by decide, by decide⟩

/-- Witness for C9 at `"a@b.co"`. -/
theorem validators_accept_trailing_newline_witness :
    ('\n' ∉ str "a@b.co") ∧ validate_email (str "a@b.co") = true ∧
    validate_email (str "a@b.co" ++ ['\n']) = true :=
  ⟨by decide, by decide,
   (validators_accept_trailing_newline (str "a@b.co") (by decide)).1 (by decide)⟩

/-! ### `mask_email` :
`re.sub(r'\b([a-zA-Z0-9._%+-]+)@([a-zA-Z0-9.-]+\.[a-zA-Z]{2,})\b', r'\1***@\2', text)`

Unanchored scan.  At a position: leading `\b` checks the previous
character's wordness against the first local-part character; the local part
is the maximal A-run (deterministic, since `@` is not in A); then the
literal `@`; then the domain: the greedy B-run backtracks its length `k`
looking for the literal dot, and the TLD run backtracks its length (min 2)
until the trailing `\b` holds.  Each match is rewritten `\1***@\2`. -/

/-- TLD ladder with trailing `\b` (previous character is a TLD letter, hence
a word character): try lengths `m, m-1, ..., 2`; returns (tld, rest). -/
def tldDescM (r3 : List Char) : Nat → Option (List Char × List Char)
  | 0 => none
  | 1 => none
  | m + 2 =>
    if wordBdry true (r3.drop (m + 2)) then
      some (r3.take (m + 2), r3.drop (m + 2))
    else tldDescM r3 (m + 1)

/-- Domain ladder: try B-run lengths `k, k-1, ..., 1`; at each length the
next character must be the literal dot, then the TLD ladder runs.  Returns
(whole domain, rest). -/
def emailDomM (r2 : List Char) : Nat → Option (List Char × List Char)
  | 0 => none
  | k + 1 =>
    match r2.drop (k + 1) with
    | c :: r3 =>
      if c = '.' then
        match tldDescM r3 (r3.takeWhile isAlphaC).length with
        | some (t, rest) => some (r2.take (k + 1) ++ '.' :: t, rest)
        | none => emailDomM r2 k
      else emailDomM r2 k
    | [] => emailDomM r2 k

/-- The unanchored email pattern at the current position; `pW` is the
wordness of the previous character.  Returns (local part, domain, rest). -/
def matchEmailAt (pW : Bool) (s : List Char) :
    Option (List Char × List Char × List Char) :=
  match s.takeWhile isLocalA with
  | [] => none
  | l0 :: ls =>
    if pW != isWordChar l0 then
      match s.dropWhile isLocalA with
      | c :: r2 =>
        if c = '@' then
          match emailDomM r2 (r2.takeWhile isDomB).length with
          | some (d, rest) => some (l0 :: ls, d, rest)
          | none => none
        else none
      | [] => none
    else none

/-- `re.sub` scan for `mask_email`: each match becomes
`local ++ "***@" ++ domain`; after a match the previous character is the
last TLD letter, a word character. -/
def emailsGoF : Nat → Bool → List Char → List Char
  | 0, _, s => s
  | _ + 1, _, [] => []
  | fuel + 1, pW, c :: cs =>
    match matchEmailAt pW (c :: cs) with
    | some (l, d, rest) => l ++ str "***@" ++ d ++ emailsGoF fuel true rest
    | none => c :: emailsGoF fuel (isWordChar c) cs

/-- `mask_email` from the source. -/
def mask_email (t : List Char) : List Char := emailsGoF t.length false t

/-! #### Lemmas for C8 -/

theorem mem_of_getLast? : ∀ (u : List Char) (c : Char),
    u.getLast? = some c → c ∈ u := by
  intro u
  induction u with
  | nil => intro c h; cases h
  | cons a u' ih =>
    intro c h
    cases u' with
    | nil =>
      rw [show (List.getLast? [a]) = some a from rfl] at h
      simp only [Option.some_inj] at h
      rw [← h]
      exact List.mem_cons_self a []
    | cons b u'' =>
      rw [show (a :: b :: u'').getLast? = (b :: u'').getLast? from rfl] at h
      exact List.mem_cons_of_mem a (ih c h)

theorem getLast?_cons_of_ne_nil (a : Char) (u : List Char) (h : u ≠ []) :
    (a :: u).getLast? = u.getLast? := by
  cases u with
  | nil => exact absurd rfl h
  | cons b u' => rfl

theorem drop_len_plus : ∀ (b x : List Char) (j : Nat),
    (b ++ x).drop (b.length + j) = x.drop j := by
  intro b
  induction b with
  | nil => intro x j; simp
  | cons c cs ih =>
    intro x j
    rw [List.cons_append, List.length_cons]
    rw [show cs.length + 1 + j = (cs.length + j) + 1 by omega]
    rw [List.drop_succ_cons]
    exact ih x j

theorem takeWhile_append_of_bad (p : Char → Bool) :
    ∀ (u x : List Char), (∃ c ∈ u, p c = false) →
      (u ++ x).takeWhile p = u.takeWhile p ∧
      (u ++ x).dropWhile p = u.dropWhile p ++ x := by
  intro u
  induction u with
  | nil =>
    intro x h
    obtain ⟨c, hc, _⟩ := h
    cases hc
  | cons a u' ih =>
    intro x h
    by_cases ha : p a = true
    · have h' : ∃ c ∈ u', p c = false := by
        obtain ⟨c, hc, hpc⟩ := h
        rcases List.mem_cons.mp hc with rfl | hc2
        · rw [ha] at hpc; cases hpc
        · exact ⟨c, hc2, hpc⟩
      obtain ⟨ht, hd⟩ := ih x h'
      constructor
      · rw [List.cons_append]
        simp [List.takeWhile, ha, ht]
      · rw [List.cons_append]
        simp [List.dropWhile, ha, hd]
    · have ha2 : p a = false := by simpa using ha
      constructor
      · rw [List.cons_append]
        simp [List.takeWhile, ha2]
      · rw [List.cons_append]
        simp [List.dropWhile, ha2]

theorem dropWhile_eq_nil_all (p : Char → Bool) (u : List Char)
    (h : u.dropWhile p = []) : ∀ c ∈ u, p c = true := by
  induction u with
  | nil => intro c hc; cases hc
  | cons a u' ih =>
    by_cases ha : p a = true
    · rw [show (a :: u').dropWhile p = u'.dropWhile p by simp [List.dropWhile, ha]] at h
      intro c hc
      rcases List.mem_cons.mp hc with rfl | hc2
      · exact ha
      · exact ih h c hc2
    · have ha2 : p a = false := by simpa using ha
      rw [show (a :: u').dropWhile p = a :: u' by simp [List.dropWhile, ha2]] at h
      cases h

/-- Letters are in the domain class. -/
theorem isAlphaC_isDomB (c : Char) (h : isAlphaC c = true) : isDomB c = true := by
  rw [isDomB, isAlnumC, h]
  rfl

/-- Letters are word characters. -/
theorem isAlphaC_isWordChar (c : Char) (h : isAlphaC c = true) :
    isWordChar c = true := by
  rw [isWordChar, isAlnumC, h]
  rfl

/-- Letters are not the dot. -/
theorem isAlphaC_ne_dot (c : Char) (h : isAlphaC c = true) : c ≠ '.' := by
  intro hc
  rw [hc] at h
  simp [isAlphaC, isLowerC, isUpperC] at h

/-- The first character exists and is a word character. -/
def headIsWord : List Char → Bool
  | [] => false
  | c :: _ => isWordChar c

/-- Right context of an email occurrence: empty, or a character that can
extend neither the domain (not in B) nor the trailing `\b` (not a word
character). -/
def headCtxOk : List Char → Bool
  | [] => true
  | c :: _ => !isDomB c && !isWordChar c

/-- Left context of an email occurrence: the last character (if any) is
neither a local-part character nor a word character. -/
def lastCtxOk (u : List Char) : Bool :=
  match u.getLast? with
  | some cu => !isLocalA cu && !isWordChar cu
  | none => true

theorem tldDescM_first (tld v : List Char) (ht1 : 2 ≤ tld.length)
    (hv : headCtxOk v = true) :
    tldDescM (tld ++ v) tld.length = some (tld, v) := by
  have hw : wordBdry true ((tld ++ v).drop tld.length) = true := by
    rw [List.drop_left]
    cases v with
    | nil => rfl
    | cons c vs =>
      rw [show headCtxOk (c :: vs) = (!isDomB c && !isWordChar c) from rfl] at hv
      rcases Bool.and_eq_true_iff.mp hv with ⟨_, hw2⟩
      rw [show wordBdry true (c :: vs) = (true != isWordChar c) from rfl]
      have : isWordChar c = false := by simpa using hw2
      rw [this]
      rfl
  obtain ⟨m, hm⟩ : ∃ m, tld.length = m + 2 := ⟨tld.length - 2, by omega⟩
  rw [hm] at hw ⊢
  rw [show tldDescM (tld ++ v) (m + 2) =
        (if wordBdry true ((tld ++ v).drop (m + 2)) = true then
          some ((tld ++ v).take (m + 2), (tld ++ v).drop (m + 2))
        else tldDescM (tld ++ v) (m + 1)) from rfl]
  rw [if_pos hw, ← hm, List.take_left, List.drop_left]

theorem emailDomM_eq (b tld v : List Char)
    (hb1 : b ≠ []) (ht1 : 2 ≤ tld.length) (ht2 : ∀ c ∈ tld, isAlphaC c = true)
    (hv : headCtxOk v = true) :
    ∀ k, b.length ≤ k + 1 → k + 1 ≤ b.length + tld.length + 1 →
      emailDomM (b ++ '.' :: (tld ++ v)) (k + 1) = some (b ++ '.' :: tld, v) := by
  intro k
  induction k using Nat.strong_induction_on with
  | _ k ih =>
    intro hk1 hk2
    rw [show emailDomM (b ++ '.' :: (tld ++ v)) (k + 1) =
          (match (b ++ '.' :: (tld ++ v)).drop (k + 1) with
           | c :: r3 =>
             if c = '.' then
               (match tldDescM r3 (r3.takeWhile isAlphaC).length with
                | some (t, rest) =>
                  some ((b ++ '.' :: (tld ++ v)).take (k + 1) ++ '.' :: t, rest)
                | none => emailDomM (b ++ '.' :: (tld ++ v)) k)
             else emailDomM (b ++ '.' :: (tld ++ v)) k
           | [] => emailDomM (b ++ '.' :: (tld ++ v)) k) from rfl]
    rcases Nat.lt_or_ge b.length (k + 1) with hbig | hfit
    · -- k + 1 > b.length : this attempt fails, the ladder descends
      have hrec : emailDomM (b ++ '.' :: (tld ++ v)) k = some (b ++ '.' :: tld, v) := by
        have hkpos : 1 ≤ k := by
          have := List.length_pos.mpr hb1
          omega
        rw [show k = (k - 1) + 1 by omega]
        exact ih (k - 1) (by omega) (by omega) (by omega)
      have hdropform : (b ++ '.' :: (tld ++ v)).drop (k + 1) =
          (tld ++ v).drop (k - b.length) := by
        rw [show k + 1 = b.length + (k - b.length + 1) by omega]
        rw [drop_len_plus, List.drop_succ_cons]
      rw [hdropform]
      rcases Nat.lt_or_ge (k - b.length) tld.length with hjlt | hjge
      · -- inside the TLD letters: head is a letter, not the dot
        cases htd : tld.drop (k - b.length) with
        | nil =>
          have := congrArg List.length htd
          simp [List.length_drop] at this
          omega
        | cons c rest =>
          have hcmem : c ∈ tld := by
            apply List.drop_subset (k - b.length) tld
            rw [htd]
            exact List.mem_cons_self c rest
          have hcdot : ¬(c = '.') := isAlphaC_ne_dot c (ht2 c hcmem)
          rw [List.drop_append_of_le_length (by omega), htd, List.cons_append]
          dsimp only
          rw [if_neg hcdot]
          exact hrec
      · -- past the TLD: at the right context, which is not the dot
        have hje : k - b.length = tld.length := by omega
        rw [hje, List.drop_left]
        cases v with
        | nil => exact hrec
        | cons cv vs =>
          rw [show headCtxOk (cv :: vs) = (!isDomB cv && !isWordChar cv) from rfl] at hv
          rcases Bool.and_eq_true_iff.mp hv with ⟨hdb, _⟩
          have hcdot : ¬(cv = '.') := by
            intro hc
            rw [hc] at hdb
            simp [isDomB] at hdb
          dsimp only
          rw [if_neg hcdot]
          exact hrec
    · -- k + 1 = b.length : the successful attempt
      have heq : k + 1 = b.length := by omega
      have hdropform : (b ++ '.' :: (tld ++ v)).drop (k + 1) = '.' :: (tld ++ v) := by
        rw [heq, show b.length = b.length + 0 by omega, drop_len_plus]
        rfl
      rw [hdropform]
      dsimp only
      rw [if_pos rfl]
      have htw : (tld ++ v).takeWhile isAlphaC = tld := by
        apply (takeWhile_all_append isAlphaC tld v ht2 ?_).1
        intro c hc
        cases v with
        | nil => cases hc
        | cons cv vs =>
          simp only [List.head?_cons, Option.some_inj] at hc
          rw [show headCtxOk (cv :: vs) = (!isDomB cv && !isWordChar cv) from rfl] at hv
          rcases Bool.and_eq_true_iff.mp hv with ⟨hdb, _⟩
          rw [← hc]
          by_contra hal
          have hal2 : isAlphaC cv = true := by simpa using hal
          rw [isAlphaC_isDomB cv hal2] at hdb
          cases hdb
      rw [htw, tldDescM_first tld v ht1 hv]
      dsimp only
      rw [heq, List.take_left]

theorem matchEmailAt_occurrence (l b tld v : List Char)
    (hl0 : headIsWord l = true) (hl2 : ∀ c ∈ l, isLocalA c = true)
    (hb1 : b ≠ []) (hb2 : ∀ c ∈ b, isDomB c = true)
    (ht1 : 2 ≤ tld.length) (ht2 : ∀ c ∈ tld, isAlphaC c = true)
    (hv : headCtxOk v = true) :
    matchEmailAt false (l ++ '@' :: (b ++ '.' :: (tld ++ v))) =
      some (l, b ++ '.' :: tld, v) := by
  have hhead : ∀ c, ('@' :: (b ++ '.' :: (tld ++ v))).head? = some c →
      isLocalA c = false := by
    intro c hc
    simp only [List.head?_cons, Option.some_inj] at hc
    rw [← hc]
    decide
  have htdw := takeWhile_all_append isLocalA l ('@' :: (b ++ '.' :: (tld ++ v)))
    hl2 hhead
  cases l with
  | nil => cases hl0
  | cons l0 ls =>
    rw [show headIsWord (l0 :: ls) = isWordChar l0 from rfl] at hl0
    rw [matchEmailAt.eq_def]
    rw [show ((l0 :: ls) ++ '@' :: (b ++ '.' :: (tld ++ v))).takeWhile isLocalA =
          l0 :: ls from htdw.1]
    dsimp only
    rw [if_pos (show (false != isWordChar l0) = true by rw [hl0]; decide)]
    rw [show ((l0 :: ls) ++ '@' :: (b ++ '.' :: (tld ++ v))).dropWhile isLocalA =
          '@' :: (b ++ '.' :: (tld ++ v)) from htdw.2]
    dsimp only
    rw [if_pos rfl]
    have hbtw : (b ++ '.' :: (tld ++ v)).takeWhile isDomB = b ++ '.' :: tld := by
      have hassoc : b ++ '.' :: (tld ++ v) = (b ++ '.' :: tld) ++ v := by simp
      rw [hassoc]
      apply (takeWhile_all_append isDomB (b ++ '.' :: tld) v ?_ ?_).1
      · intro c hc
        rcases List.mem_append.mp hc with hcb | hct
        · exact hb2 c hcb
        · rcases List.mem_cons.mp hct with rfl | hct2
          · decide
          · exact isAlphaC_isDomB c (ht2 c hct2)
      · intro c hc
        cases v with
        | nil => cases hc
        | cons cv vs =>
          simp only [List.head?_cons, Option.some_inj] at hc
          rw [show headCtxOk (cv :: vs) = (!isDomB cv && !isWordChar cv) from rfl] at hv
          rcases Bool.and_eq_true_iff.mp hv with ⟨hdb, _⟩
          rw [← hc]
          simpa using hdb
    rw [hbtw]
    have hlen : (b ++ '.' :: tld).length = (b.length + tld.length) + 1 := by
      simp
      omega
    rw [hlen]
    rw [emailDomM_eq b tld v hb1 ht1 ht2 hv (b.length + tld.length)
      (by omega) (by omega)]

theorem matchEmailAt_none_before (u' x : List Char) (pW : Bool)
    (_hne : u' ≠ []) (hat : '@' ∉ u')
    (hlast : ∃ cu, u'.getLast? = some cu ∧ isLocalA cu = false) :
    matchEmailAt pW (u' ++ x) = none := by
  obtain ⟨cu, hculast, hcuA⟩ := hlast
  have hex : ∃ c ∈ u', isLocalA c = false :=
    ⟨cu, mem_of_getLast? u' cu hculast, hcuA⟩
  obtain ⟨htw, hdw⟩ := takeWhile_append_of_bad isLocalA u' x hex
  rw [matchEmailAt.eq_def, htw]
  cases htwu : u'.takeWhile isLocalA with
  | nil => rfl
  | cons l0 ls =>
    dsimp only
    cases hbd : (pW != isWordChar l0) with
    | false => rfl
    | true =>
      rw [if_pos rfl]
      rw [hdw]
      cases hdwu : u'.dropWhile isLocalA with
      | nil =>
        have hall := dropWhile_eq_nil_all isLocalA u' hdwu
        obtain ⟨c, hc, hcf⟩ := hex
        rw [hall c hc] at hcf
        cases hcf
      | cons c' rest' =>
        rw [List.cons_append]
        dsimp only
        have hc'mem : c' ∈ u' := by
          obtain ⟨w, hw⟩ := dropWhile_is_suffix isLocalA u'
          rw [← hw]
          apply List.mem_append_right
          rw [hdwu]
          exact List.mem_cons_self c' rest'
        have hc'ne : ¬(c' = '@') := by
          intro hc
          rw [hc] at hc'mem
          exact hat hc'mem
        rw [if_neg hc'ne]

theorem tldDescM_rest : ∀ (m : Nat) (r3 t rest : List Char),
    tldDescM r3 m = some (t, rest) → rest.length ≤ r3.length := by
  intro m
  induction m using Nat.strong_induction_on with
  | _ m ih =>
    intro r3 t rest h
    match m, h with
    | 0, h => cases h
    | 1, h => cases h
    | m + 2, h =>
      rw [show tldDescM r3 (m + 2) =
            (if wordBdry true (r3.drop (m + 2)) = true then
              some (r3.take (m + 2), r3.drop (m + 2))
            else tldDescM r3 (m + 1)) from rfl] at h
      by_cases hw : wordBdry true (r3.drop (m + 2)) = true
      · rw [if_pos hw] at h
        simp only [Option.some_inj, Prod.mk.injEq] at h
        rw [← h.2]
        simp [List.length_drop]
      · rw [if_neg hw] at h
        exact ih (m + 1) (by omega) r3 t rest h

theorem emailDomM_rest : ∀ (k : Nat) (r2 d rest : List Char),
    emailDomM r2 k = some (d, rest) → rest.length < r2.length := by
  intro k
  induction k using Nat.strong_induction_on with
  | _ k ih =>
    intro r2 d rest h
    match k, h with
    | 0, h => cases h
    | k + 1, h =>
      rw [show emailDomM r2 (k + 1) =
            (match r2.drop (k + 1) with
             | c :: r3 =>
               if c = '.' then
                 (match tldDescM r3 (r3.takeWhile isAlphaC).length with
                  | some (t, rest) => some (r2.take (k + 1) ++ '.' :: t, rest)
                  | none => emailDomM r2 k)
               else emailDomM r2 k
             | [] => emailDomM r2 k) from rfl] at h
      cases hdrop : r2.drop (k + 1) with
      | nil =>
        rw [hdrop] at h
        exact ih k (by omega) r2 d rest h
      | cons c r3 =>
        rw [hdrop] at h
        dsimp only at h
        by_cases hc : c = '.'
        · rw [if_pos hc] at h
          cases htld : tldDescM r3 (r3.takeWhile isAlphaC).length with
          | none =>
            rw [htld] at h
            exact ih k (by omega) r2 d rest h
          | some p =>
            obtain ⟨t, rest2⟩ := p
            rw [htld] at h
            dsimp only at h
            simp only [Option.some_inj, Prod.mk.injEq] at h
            have h3 : rest2.length ≤ r3.length := tldDescM_rest _ r3 t rest2 htld
            have hlt : k + 1 < r2.length := drop_cons_lt r2 (k + 1) c r3 hdrop
            have hlen3 : r3.length + 1 = r2.length - (k + 1) := by
              have := congrArg List.length hdrop
              simp [List.length_drop] at this
              omega
            rw [← h.2]
            omega
        · rw [if_neg hc] at h
          exact ih k (by omega) r2 d rest h

theorem matchEmailAt_rest_lt (pW : Bool) (s l d rest : List Char)
    (h : matchEmailAt pW s = some (l, d, rest)) : rest.length < s.length := by
  rw [matchEmailAt.eq_def] at h
  cases htw : s.takeWhile isLocalA with
  | nil => rw [htw] at h; cases h
  | cons l0 ls =>
    rw [htw] at h
    dsimp only at h
    by_cases hbd : (pW != isWordChar l0) = true
    · rw [if_pos hbd] at h
      cases hdw : s.dropWhile isLocalA with
      | nil => rw [hdw] at h; cases h
      | cons c r2 =>
        rw [hdw] at h
        dsimp only at h
        by_cases hc : c = '@'
        · rw [if_pos hc] at h
          cases hdom : emailDomM r2 (r2.takeWhile isDomB).length with
          | none => rw [hdom] at h; cases h
          | some p =>
            obtain ⟨d2, rest2⟩ := p
            rw [hdom] at h
            dsimp only at h
            simp only [Option.some_inj, Prod.mk.injEq] at h
            have hr2 : rest2.length < r2.length := emailDomM_rest _ r2 d2 rest2 hdom
            obtain ⟨u0, hu0⟩ := dropWhile_is_suffix isLocalA s
            have hslen : r2.length + 1 ≤ s.length := by
              have hlen := congrArg List.length hu0
              rw [hdw] at hlen
              simp at hlen
              omega
            rw [← h.2.2]
            omega
        · rw [if_neg hc] at h
          cases h
    · rw [if_neg hbd] at h
      cases h

theorem emailsGoF_fuel_eq : ∀ (f1 f2 : Nat) (pW : Bool) (s : List Char),
    s.length ≤ f1 → s.length ≤ f2 → emailsGoF f1 pW s = emailsGoF f2 pW s := by
  intro f1
  induction f1 with
  | zero =>
    intro f2 pW s h1 h2
    have hs : s = [] := List.length_eq_zero.mp (Nat.le_zero.mp h1)
    rw [hs]
    cases f2 <;> rfl
  | succ f1 ih =>
    intro f2 pW s h1 h2
    cases s with
    | nil => cases f2 <;> rfl
    | cons c cs =>
      cases f2 with
      | zero => simp at h2
      | succ f2 =>
        rw [show emailsGoF (f1 + 1) pW (c :: cs) =
              (match matchEmailAt pW (c :: cs) with
               | some (l, d, rest) => l ++ str "***@" ++ d ++ emailsGoF f1 true rest
               | none => c :: emailsGoF f1 (isWordChar c) cs) from rfl]
        rw [show emailsGoF (f2 + 1) pW (c :: cs) =
              (match matchEmailAt pW (c :: cs) with
               | some (l, d, rest) => l ++ str "***@" ++ d ++ emailsGoF f2 true rest
               | none => c :: emailsGoF f2 (isWordChar c) cs) from rfl]
        cases hm : matchEmailAt pW (c :: cs) with
        | none =>
          dsimp only
          rw [ih f2 (isWordChar c) cs (by simp at h1; omega) (by simp at h2; omega)]
        | some p =>
          obtain ⟨l, d, rest⟩ := p
          dsimp only
          have hlt := matchEmailAt_rest_lt pW (c :: cs) l d rest hm
          simp only [List.length_cons] at hlt
          rw [ih f2 true rest (by simp at h1; omega) (by simp at h2; omega)]

theorem emailsGo_mask (l b tld v : List Char)
    (hl0 : headIsWord l = true) (hl2 : ∀ c ∈ l, isLocalA c = true)
    (hb1 : b ≠ []) (hb2 : ∀ c ∈ b, isDomB c = true)
    (ht1 : 2 ≤ tld.length) (ht2 : ∀ c ∈ tld, isAlphaC c = true)
    (hv : headCtxOk v = true) :
    ∀ (fuel : Nat) (u : List Char) (pW : Bool),
      (u ++ (l ++ '@' :: (b ++ '.' :: (tld ++ v)))).length ≤ fuel →
      '@' ∉ u → (u = [] → pW = false) → lastCtxOk u = true →
      emailsGoF fuel pW (u ++ (l ++ '@' :: (b ++ '.' :: (tld ++ v)))) =
        u ++ (l ++ str "***@" ++ (b ++ '.' :: tld) ++ emailsGoF v.length true v) := by
  intro fuel
  induction fuel with
  | zero =>
    intro u pW hlen _ _ _
    exfalso
    have hlp : 1 ≤ l.length := by
      cases l with
      | nil => cases hl0
      | cons a as => simp
    rw [List.length_append, List.length_append] at hlen
    simp only [List.length_cons] at hlen
    omega
  | succ fuel ih =>
    intro u pW hlen hat hpw hlast
    cases u with
    | nil =>
      have hpw2 : pW = false := hpw rfl
      subst hpw2
      simp only [List.nil_append]
      cases hl : l with
      | nil => rw [hl] at hl0; cases hl0
      | cons l0 ls =>
        rw [← hl]
        rw [show l ++ '@' :: (b ++ '.' :: (tld ++ v)) =
              l0 :: (ls ++ '@' :: (b ++ '.' :: (tld ++ v))) by rw [hl]; rfl]
        rw [show emailsGoF (fuel + 1) false
              (l0 :: (ls ++ '@' :: (b ++ '.' :: (tld ++ v)))) =
              (match matchEmailAt false (l0 :: (ls ++ '@' :: (b ++ '.' :: (tld ++ v)))) with
               | some (lx, d, rest) =>
                 lx ++ str "***@" ++ d ++ emailsGoF fuel true rest
               | none =>
                 l0 :: emailsGoF fuel (isWordChar l0)
                   (ls ++ '@' :: (b ++ '.' :: (tld ++ v)))) from rfl]
        rw [show (l0 :: (ls ++ '@' :: (b ++ '.' :: (tld ++ v)))) =
              l ++ '@' :: (b ++ '.' :: (tld ++ v)) by rw [hl]; rfl]
        rw [matchEmailAt_occurrence l b tld v hl0 hl2 hb1 hb2 ht1 ht2 hv]
        dsimp only
        have hvfuel : v.length ≤ fuel := by
          simp at hlen
          omega
        rw [emailsGoF_fuel_eq fuel v.length true v hvfuel le_rfl]
    | cons c u'' =>
      have hlastc : ∃ cu, (c :: u'').getLast? = some cu ∧ isLocalA cu = false := by
        cases hgl : (c :: u'').getLast? with
        | none => cases u'' <;> simp at hgl
        | some cu =>
          rw [lastCtxOk, hgl] at hlast
          dsimp only at hlast
          rcases Bool.and_eq_true_iff.mp hlast with ⟨h1, _⟩
          exact ⟨cu, rfl, by simpa using h1⟩
      rw [List.cons_append]
      rw [show emailsGoF (fuel + 1) pW
            (c :: (u'' ++ (l ++ '@' :: (b ++ '.' :: (tld ++ v))))) =
            (match matchEmailAt pW (c :: (u'' ++ (l ++ '@' :: (b ++ '.' :: (tld ++ v))))) with
             | some (lx, d, rest) =>
               lx ++ str "***@" ++ d ++ emailsGoF fuel true rest
             | none =>
               c :: emailsGoF fuel (isWordChar c)
                 (u'' ++ (l ++ '@' :: (b ++ '.' :: (tld ++ v))))) from rfl]
      rw [show (c :: (u'' ++ (l ++ '@' :: (b ++ '.' :: (tld ++ v))))) =
            (c :: u'') ++ (l ++ '@' :: (b ++ '.' :: (tld ++ v))) from rfl]
      rw [matchEmailAt_none_before (c :: u'') _ pW (by simp) hat hlastc]
      dsimp only
      have hrec := ih u'' (isWordChar c) ?_ ?_ ?_ ?_
      · rw [hrec]
        rfl
      · simp at hlen ⊢
        omega
      · intro hm
        exact hat (List.mem_cons_of_mem c hm)
      · intro hu''
        subst hu''
        rw [show lastCtxOk [c] = (!isLocalA c && !isWordChar c) from rfl] at hlast
        rcases Bool.and_eq_true_iff.mp hlast with ⟨_, h2⟩
        simpa using h2
      · cases hu'' : u'' with
        | nil => rfl
        | cons d u3 =>
          rw [lastCtxOk, ← getLast?_cons_of_ne_nil c (d :: u3) (by simp)]
          rw [hu''] at hlast
          rw [lastCtxOk] at hlast
          exact hlast

/-- Claim C8: `mask_email` rewrites a word-bounded email occurrence
`local@domain` into `local***@domain` with the domain fully preserved, and
continues scanning the remaining text the same way; in particular
`mask_email "user@gmail.com" = "user***@gmail.com"`.  The occurrence is a
nonempty local part starting with a word character, `@`, a domain
`b.tld` with `tld` at least two letters; the surrounding context must not
extend the match (left: no `@` and a final character outside the local
class and non-word; right: a character outside the domain class and
non-word, or the end). -/
theorem mask_email_spec (u l b tld v : List Char)
    (hu1 : '@' ∉ u) (hu2 : lastCtxOk u = true)
    (hl0 : headIsWord l = true) (hl2 : ∀ c ∈ l, isLocalA c = true)
    (hb1 : b ≠ []) (hb2 : ∀ c ∈ b, isDomB c = true)
    (ht1 : 2 ≤ tld.length) (ht2 : ∀ c ∈ tld, isAlphaC c = true)
    (hv : headCtxOk v = true) :
    mask_email (u ++ (l ++ '@' :: (b ++ '.' :: (tld ++ v)))) =
      u ++ (l ++ str "***@" ++ (b ++ '.' :: tld) ++ emailsGoF v.length true v) ∧
    mask_email (str "user@gmail.com") = str "user***@gmail.com" := by
  constructor
  · exact emailsGo_mask l b tld v hl0 hl2 hb1 hb2 ht1 ht2 hv _ u false
      le_rfl hu1 (fun _ => rfl) hu2
  · decide

/-- Witness for C8 at `"x: user@gmail.com"`. -/
theorem mask_email_spec_witness :
    mask_email (str "x: " ++
        (str "user" ++ '@' :: (str "gmail" ++ '.' :: (str "com" ++ [])))) =
      str "x: " ++ (str "user" ++ str "***@" ++ (str "gmail" ++ '.' :: str "com") ++
        emailsGoF ([] : List Char).length true []) ∧
    mask_email (str "user@gmail.com") = str "user***@gmail.com" :=
  mask_email_spec (str "x: ") (str "user") (str "gmail") (str "com") []
    (by decide) (by decide) (by decide) (by decide) (by decide) (by decide)
    (by decide) (by decide) (by decide)

/-! ### C7: totality / non-match behaviour / literal escaping

In the embedding every operation is a total function by construction; the
substantive, checkable parts of the claim are: a replacer leaves text
without matches unchanged, an extractor returns the empty list when no
occurrence exists, a validator returns `false` exactly off its accepted
shape, and caller-supplied censor words are matched literally (the effect
of `re.escape`): a word containing the metacharacter `.` does not match
texts where `.` would match as a pattern wildcard. -/

/-- Some case-insensitive occurrence of `w` starts somewhere in the text. -/
def hasCIOcc (w : List Char) : List Char → Bool
  | [] => ciPref w []
  | c :: cs => ciPref w (c :: cs) || hasCIOcc w cs

/-- Some marker-plus-word-character occurrence exists. -/
def hasTagOcc (m : Char) : List Char → Bool
  | [] => false
  | c :: cs => (c = m && headIsWord cs) || hasTagOcc m cs

/-- The accepted shape of `validate_nik`: sixteen digits, then the end (or
a final newline, accepted by `$`). -/
def nikOk (t : List Char) : Bool :=
  (t.take 16).all isDigitC &&
    (decide (16 ≤ t.length) && endCheck (t.drop 16))

theorem hasCIOcc_nil_word (t : List Char) : hasCIOcc [] t = true := by
  cases t with
  | nil => rfl
  | cons c cs => rfl

theorem censorGoF_id (w : List Char) :
    ∀ (fuel : Nat) (t : List Char), hasCIOcc w t = false →
      censorGoF w fuel t = t := by
  intro fuel
  induction fuel with
  | zero => intro t _; rfl
  | succ fuel ih =>
    intro t h
    cases t with
    | nil => rfl
    | cons c cs =>
      rw [show hasCIOcc w (c :: cs) =
            (ciPref w (c :: cs) || hasCIOcc w cs) from rfl] at h
      rcases Bool.or_eq_false_iff.mp h with ⟨h1, h2⟩
      rw [show censorGoF w (fuel + 1) (c :: cs) =
            (if ciPref w (c :: cs) = true then
              List.replicate w.length '*' ++
                censorGoF w fuel ((c :: cs).drop w.length)
            else c :: censorGoF w fuel cs) from rfl]
      rw [if_neg (by simp [h1]), ih cs h2]

theorem censorWord_id (w t : List Char) (h : hasCIOcc w t = false) :
    censorWord w t = t := by
  cases w with
  | nil =>
    rw [hasCIOcc_nil_word] at h
    cases h
  | cons a as => exact censorGoF_id (a :: as) t.length t h

theorem headIsWord_false_takeWhile (cs : List Char)
    (h : headIsWord cs = false) : cs.takeWhile isWordChar = [] := by
  cases cs with
  | nil => rfl
  | cons d ds =>
    rw [show headIsWord (d :: ds) = isWordChar d from rfl] at h
    simp [List.takeWhile, h]

theorem tagGoF_empty (m : Char) :
    ∀ (fuel : Nat) (t : List Char), hasTagOcc m t = false →
      tagGoF m fuel t = [] := by
  intro fuel
  induction fuel with
  | zero => intro t _; rfl
  | succ fuel ih =>
    intro t h
    cases t with
    | nil => rfl
    | cons c cs =>
      rw [show hasTagOcc m (c :: cs) =
            ((c = m && headIsWord cs) || hasTagOcc m cs) from rfl] at h
      rcases Bool.or_eq_false_iff.mp h with ⟨h1, h2⟩
      rw [tagGoF_cons]
      by_cases hc : c = m
      · have hw : headIsWord cs = false := by
          subst hc
          simpa using h1
        rw [if_pos hc, headIsWord_false_takeWhile cs hw]
        dsimp only
        exact ih cs h2
      · rw [if_neg hc]
        exact ih cs h2

theorem validate_nik_eq_nikOk (t : List Char) : validate_nik t = nikOk t := by
  cases h16 : takeDigitsN t 16 with
  | some p =>
    obtain ⟨d, r⟩ := p
    obtain ⟨hs, hl, hd⟩ := takeDigitsN_sound 16 t d r h16
    rw [validate_nik.eq_def, h16]
    dsimp only
    have htk : t.take 16 = d := by
      rw [hs, ← hl]
      exact List.take_left d r
    have hdr : t.drop 16 = r := by
      rw [hs, ← hl]
      exact List.drop_left d r
    have hlen : decide (16 ≤ t.length) = true := by
      rw [hs]
      simp
      omega
    rw [nikOk, htk, hdr, hd, hlen]
    simp
  | none =>
    rw [validate_nik.eq_def, h16]
    dsimp only
    cases hnik : nikOk t with
    | false => rfl
    | true =>
      exfalso
      rw [nikOk] at hnik
      rcases Bool.and_eq_true_iff.mp hnik with ⟨h1, h23⟩
      rcases Bool.and_eq_true_iff.mp h23 with ⟨h2, _⟩
      have hlen : 16 ≤ t.length := of_decide_eq_true h2
      have h16x : takeDigitsN t 16 = some (t.take 16, t.drop 16) := by
        have hx := takeDigitsN_append (t.take 16) (t.drop 16) h1
        rw [List.take_append_drop] at hx
        rw [show (t.take 16).length = 16 by
          simp [List.length_take]
          omega] at hx
        exact hx
      rw [h16x] at h16
      cases h16

/-- If no censor word occurs (case-insensitively) in the text, the whole
fold leaves the text unchanged. -/
theorem censor_profanity_id (t : List Char) (ws : List (List Char))
    (h : ∀ w ∈ ws, hasCIOcc w t = false) : censor_profanity t ws = t := by
  induction ws with
  | nil => rfl
  | cons w ws ih =>
    rw [show censor_profanity t (w :: ws) =
          censor_profanity (censorWord w t) ws from rfl]
    rw [censorWord_id w t (h w (List.mem_cons_self w ws))]
    exact ih (fun w2 hw2 => h w2 (List.mem_cons_of_mem w hw2))

/-! ### `validate_password` : five independent `re.search` criteria

Each criterion is an unanchored search: length at least 8, and one
character from each of the classes upper, lower, digit, special. -/

/-- The special-character class of the password pattern. -/
def isSpecialC (c : Char) : Bool :=
  c = '!' || c = '@' || c = '#' || c = '$' || c = '%' || c = '^' || c = '&' ||
  c = '*' || c = '(' || c = ')' || c = ',' || c = '.' || c = '?' || c = '\"' ||
  c = ':' || c = '\x7b' || c = '\x7d' || c = '|' || c = '<' || c = '>'

/-- The five named boolean criteria returned by `validate_password`. -/
structure PasswordChecks where
  min_length : Bool
  has_uppercase : Bool
  has_lowercase : Bool
  has_digit : Bool
  has_special : Bool

/-- `validate_password` from the source: `len(password) >= 8` plus one
unanchored `re.search` per character class (a search succeeds iff some
character of the string is in the class). -/
def validate_password (s : List Char) : PasswordChecks :=
  ⟨decide (8 ≤ s.length), s.any isUpperC, s.any isLowerC,
    s.any isDigitC, s.any isSpecialC⟩

/-! ### `extract_emails` :
`re.findall` of the same email pattern as `mask_email`, without capture
groups, so the whole matched substrings are returned. -/

/-- `findall` scan for emails, collecting `local ++ "@" ++ domain`. -/
def emailsExtGoF : Nat → Bool → List Char → List (List Char)
  | 0, _, _ => []
  | _ + 1, _, [] => []
  | fuel + 1, pW, c :: cs =>
    match matchEmailAt pW (c :: cs) with
    | some (l, d, rest) => (l ++ '@' :: d) :: emailsExtGoF fuel true rest
    | none => emailsExtGoF fuel (isWordChar c) cs

/-- `extract_emails` from the source. -/
def extract_emails (t : List Char) : List (List Char) :=
  emailsExtGoF t.length false t

/-! ### `remove_html_tags` : `re.sub(r'<[^>]+>', '', text)`

A tag is a literal `<`, a nonempty greedy run of non-`>` characters, and a
literal `>`; since `>` is excluded from the repeated class, the run is the
maximal one and the match is deterministic. -/

/-- Try the tag pattern at the current position; returns the rest after the
closing `>`. -/
def matchHtmlAt (s : List Char) : Option (List Char) :=
  match s with
  | [] => none
  | c :: rest =>
    if c = '<' then
      match rest.takeWhile (fun d => !(d = '>')) with
      | [] => none
      | _ :: _ =>
        match rest.dropWhile (fun d => !(d = '>')) with
        | d :: r2 => if d = '>' then some r2 else none
        | [] => none
    else none

/-- `re.sub` scan deleting each tag. -/
def htmlGoF : Nat → List Char → List Char
  | 0, s => s
  | _ + 1, [] => []
  | fuel + 1, c :: cs =>
    match matchHtmlAt (c :: cs) with
    | some rest => htmlGoF fuel rest
    | none => c :: htmlGoF fuel cs

/-- `remove_html_tags` from the source. -/
def remove_html_tags (t : List Char) : List Char := htmlGoF t.length t

/-! ### `extract_urls` : `re.findall` of the URL pattern, unanchored

Same pattern as `validate_url` but with no `^`/`$`: after the `\b` the
trailing `(?:[path]*)` simply consumes the maximal path run (nothing
follows it, so no backtracking into it), and the ladders stop at the first
success.  The matcher returns the matched characters and the rest. -/

/-- `[tld]{1,6}\b(?:[path]*)` ladder over the TLD length, unanchored. -/
def urlTldExt (r4 : List Char) : Nat → Option (List Char × List Char)
  | 0 => none
  | m + 1 =>
    match r4.drop m with
    | c :: rest2 =>
      if wordBdry (isWordChar c) rest2 then
        some (r4.take (m + 1) ++ rest2.takeWhile isUrlPath,
              rest2.dropWhile isUrlPath)
      else urlTldExt r4 m
    | [] => urlTldExt r4 m

/-- `[host]{1,256}\.` ladder over the host length, unanchored. -/
def urlHostExt (r3 : List Char) : Nat → Option (List Char × List Char)
  | 0 => none
  | k + 1 =>
    match r3.drop (k + 1) with
    | c :: r4 =>
      if c = '.' then
        match urlTldExt r4 (min 6 (r4.takeWhile isUrlTld).length) with
        | some (m2, rest) => some (r3.take (k + 1) ++ '.' :: m2, rest)
        | none => urlHostExt r3 k
      else urlHostExt r3 k
    | [] => urlHostExt r3 k

/-- Host part with the greedy starting count. -/
def urlHostTop (r : List Char) : Option (List Char × List Char) :=
  urlHostExt r (min 256 (r.takeWhile isUrlHost).length)

/-- Optional `www.` with fall-back, unanchored. -/
def urlWWWExt (r2 : List Char) : Option (List Char × List Char) :=
  match stripPref (str "www.") r2 with
  | some r3 =>
    match urlHostTop r3 with
    | some (m2, rest) => some (str "www." ++ m2, rest)
    | none => urlHostTop r2
  | none => urlHostTop r2

/-- Literal `://`, unanchored. -/
def urlColonExt (r : List Char) : Option (List Char × List Char) :=
  match stripPref (str "://") r with
  | some r2 =>
    match urlWWWExt r2 with
    | some (m2, rest) => some (str "://" ++ m2, rest)
    | none => none
  | none => none

/-- Optional `s` of `https?` with fall-back, unanchored. -/
def urlSchemeExt (r1 : List Char) : Option (List Char × List Char) :=
  match r1 with
  | c :: r2 =>
    if c = 's' then
      match urlColonExt r2 with
      | some (m2, rest) => some ('s' :: m2, rest)
      | none => urlColonExt r1
    else urlColonExt r1
  | [] => urlColonExt r1

/-- Try the URL pattern at the current position. -/
def matchUrlAt (s : List Char) : Option (List Char × List Char) :=
  match stripPref (str "http") s with
  | some r1 =>
    match urlSchemeExt r1 with
    | some (m2, rest) => some (str "http" ++ m2, rest)
    | none => none
  | none => none

/-- `findall` scan for URLs. -/
def urlsGoF : Nat → List Char → List (List Char)
  | 0, _ => []
  | _ + 1, [] => []
  | fuel + 1, c :: cs =>
    match matchUrlAt (c :: cs) with
    | some (m, rest) => m :: urlsGoF fuel rest
    | none => urlsGoF fuel cs

/-- `extract_urls` from the source. -/
def extract_urls (t : List Char) : List (List Char) := urlsGoF t.length t

/-! ### Spec-level occurrence tests for the no-match statements -/

/-- A phone-pattern occurrence starts here: one of the three literal
prefixes followed by at least nine digit characters. -/
def phoneNineAt (x : List Char) : Bool :=
  (match stripPref (str "+62") x with
   | some r => decide (9 ≤ r.length) && (r.take 9).all isDigitC
   | none => false) ||
  (match stripPref (str "62") x with
   | some r => decide (9 ≤ r.length) && (r.take 9).all isDigitC
   | none => false) ||
  (match stripPref (str "0") x with
   | some r => decide (9 ≤ r.length) && (r.take 9).all isDigitC
   | none => false)

/-- Some position of the text starts a phone-pattern occurrence. -/
def hasPhoneNine : List Char → Bool
  | [] => false
  | c :: cs => phoneNineAt (c :: cs) || hasPhoneNine cs

/-- Some position of the text starts with the literal `://`. -/
def hasSchemeSep : List Char → Bool
  | [] => false
  | c :: cs => (stripPref (str "://") (c :: cs)).isSome || hasSchemeSep cs

/-- An HTML-tag occurrence starts here: `<`, a nonempty run of non-`>`
characters, and a closing `>` somewhere after the run. -/
def htmlTagAt (x : List Char) : Bool :=
  match x with
  | [] => false
  | c :: rest =>
    c = '<' && !(rest.takeWhile (fun d => !(d = '>'))).isEmpty &&
      !(rest.dropWhile (fun d => !(d = '>'))).isEmpty

/-- Some position of the text starts an HTML tag. -/
def hasHtmlTag : List Char → Bool
  | [] => false
  | c :: cs => htmlTagAt (c :: cs) || hasHtmlTag cs

/-! ### Helper lemmas for the acceptance characterizations -/

theorem endCheck_iff (r : List Char) : endCheck r = true ↔ r = [] ∨ r = ['\n'] := by
  cases r with
  | nil => simp [endCheck]
  | cons c rest =>
    cases rest with
    | nil =>
      simp only [endCheck, List.isEmpty_nil, Bool.and_true, decide_eq_true_eq]
      constructor
      · intro h; right; rw [h]
      · rintro (h | h)
        · cases h
        · exact (List.cons.injEq .. ▸ h).1
    | cons d rest2 =>
      simp [endCheck]

theorem take_all_of_le_takeWhile (p : Char → Bool) :
    ∀ (l : List Char) (j : Nat), j ≤ (l.takeWhile p).length →
      ∀ c ∈ l.take j, p c = true := by
  intro l
  induction l with
  | nil => intro j _ c hc; simp at hc
  | cons a as ih =>
    intro j hj c hc
    cases j with
    | zero => simp at hc
    | succ j =>
      by_cases ha : p a = true
      · rw [show (a :: as).takeWhile p = a :: as.takeWhile p from by
            simp [List.takeWhile, ha]] at hj
        rw [show (a :: as).take (j + 1) = a :: as.take j from rfl] at hc
        rcases List.mem_cons.mp hc with h | h
        · rw [h]; exact ha
        · exact ih j (by simpa using hj) c h
      · rw [show (a :: as).takeWhile p = [] from by
            simp [List.takeWhile, Bool.eq_false_iff.mpr ha]] at hj
        simp at hj

theorem takeWhile_all_left (p : Char → Bool) :
    ∀ (w x : List Char), (∀ c ∈ w, p c = true) →
      (w ++ x).takeWhile p = w ++ x.takeWhile p ∧
      (w ++ x).dropWhile p = x.dropWhile p := by
  intro w
  induction w with
  | nil => intro x _; simp
  | cons a as ih =>
    intro x hw
    have ha : p a = true := hw a (by simp)
    have ih2 := ih x (fun c hc => hw c (by simp [hc]))
    constructor
    · rw [show ((a :: as) ++ x) = a :: (as ++ x) from rfl]
      simp only [List.takeWhile, ha]
      rw [ih2.1]
      rfl
    · rw [show ((a :: as) ++ x) = a :: (as ++ x) from rfl]
      simp only [List.dropWhile, ha]
      exact ih2.2

theorem take_len_plus : ∀ (b x : List Char) (j : Nat),
    (b ++ x).take (b.length + j) = b ++ x.take j := by
  intro b
  induction b with
  | nil => intro x j; simp
  | cons c cs ih =>
    intro x j
    rw [show ((c :: cs) ++ x) = c :: (cs ++ x) from rfl,
        show (c :: cs).length + j = (cs.length + j) + 1 from by
          simp [List.length_cons]; omega,
        show (c :: (cs ++ x)).take ((cs.length + j) + 1) =
          c :: (cs ++ x).take (cs.length + j) from rfl, ih]
    rfl

theorem dropWhile_head_not (p : Char → Bool) :
    ∀ (l : List Char) (d : Char) (r : List Char),
      l.dropWhile p = d :: r → p d = false := by
  intro l
  induction l with
  | nil => intro d r h; cases h
  | cons a as ih =>
    intro d r h
    by_cases ha : p a = true
    · rw [show (a :: as).dropWhile p = as.dropWhile p from by
          simp [List.dropWhile, ha]] at h
      exact ih d r h
    · rw [show (a :: as).dropWhile p = a :: as from by
          simp [List.dropWhile, Bool.eq_false_iff.mpr ha]] at h
      obtain ⟨h1, _⟩ := List.cons.injEq .. ▸ h
      rw [← h1]
      exact Bool.eq_false_iff.mpr ha

/-! ### Accepted-shape predicates for the validators

These follow the regex patterns as written in the source, including the
pre-final-newline behaviour of `$`: the accepted strings are exactly a
pattern instance followed by nothing or by one final newline. -/

/-- What `$` accepts after the pattern instance (no MULTILINE). -/
def EndOk (rest : List Char) : Prop := rest = [] ∨ rest = ['\n']

/-- Accepted shape of `^(\+62|62|0)[0-9]{9,12}$`. -/
def PhoneOk (s : List Char) : Prop :=
  ∃ p d rest, (p = str "+62" ∨ p = str "62" ∨ p = str "0") ∧
    s = p ++ (d ++ rest) ∧ (∀ c ∈ d, isDigitC c = true) ∧
    9 ≤ d.length ∧ d.length ≤ 12 ∧ EndOk rest

/-- Accepted shape of `^[A]+@[B]+\.[a-zA-Z]{2,}$` (A the local-part class,
B the domain class). -/
def EmailOk (s : List Char) : Prop :=
  ∃ l dm tl rest, s = l ++ '@' :: (dm ++ '.' :: (tl ++ rest)) ∧
    l ≠ [] ∧ (∀ c ∈ l, isLocalA c = true) ∧
    dm ≠ [] ∧ (∀ c ∈ dm, isDomB c = true) ∧
    2 ≤ tl.length ∧ (∀ c ∈ tl, isAlphaC c = true) ∧ EndOk rest

/-- Accepted shape of the URL pattern: scheme, optional `s`, `://`,
optional `www.`, host part (1..256 host characters) and a dot, TLD part
(1..6 TLD characters, last one `ct`), the `\b` condition between `ct` and
what follows, then path characters and the end. -/
def UrlOk (s : List Char) : Prop :=
  ∃ sch w h tl ct pth rest,
    s = str "http" ++ (sch ++ (str "://" ++
        (w ++ (h ++ '.' :: ((tl ++ [ct]) ++ (pth ++ rest)))))) ∧
    (sch = [] ∨ sch = ['s']) ∧ (w = [] ∨ w = str "www.") ∧
    h ≠ [] ∧ h.length ≤ 256 ∧ (∀ c ∈ h, isUrlHost c = true) ∧
    (tl ++ [ct]).length ≤ 6 ∧ (∀ c ∈ tl ++ [ct], isUrlTld c = true) ∧
    wordBdry (isWordChar ct) (pth ++ rest) = true ∧
    (∀ c ∈ pth, isUrlPath c = true) ∧ EndOk rest

/-! ### Characterization of `validate_phone_id` -/

theorem phoneTailV_shape (r : List Char) (h : phoneTailV r = true) :
    ∃ d rest, r = d ++ rest ∧ (∀ c ∈ d, isDigitC c = true) ∧
      9 ≤ d.length ∧ d.length ≤ 12 ∧ EndOk rest := by
  have h' : phoneDesc r (min 12 (r.takeWhile isDigitC).length) = true := h
  obtain ⟨j, h9, hjk, hend⟩ := (phoneDesc_iff r _).mp h'
  have hjr : j ≤ (r.takeWhile isDigitC).length :=
    le_trans hjk (Nat.min_le_right _ _)
  have hj12 : j ≤ 12 := le_trans hjk (Nat.min_le_left _ _)
  have hjlen : j ≤ r.length := le_trans hjr (takeWhile_length_le _ _)
  refine ⟨r.take j, r.drop j, (List.take_append_drop j r).symm,
    take_all_of_le_takeWhile _ r j hjr, ?_, ?_, (endCheck_iff _).mp hend⟩
  · rw [List.length_take]; omega
  · rw [List.length_take]; omega

theorem phoneTailV_of_shape (d rest : List Char)
    (hd : ∀ c ∈ d, isDigitC c = true) (h9 : 9 ≤ d.length)
    (h12 : d.length ≤ 12) (hrest : EndOk rest) :
    phoneTailV (d ++ rest) = true := by
  have htw : ((d ++ rest).takeWhile isDigitC) = d ++ rest.takeWhile isDigitC :=
    (takeWhile_all_left _ d rest hd).1
  have hrtw : rest.takeWhile isDigitC = [] := by
    rcases hrest with h | h <;> rw [h] <;> decide
  show phoneDesc (d ++ rest) (min 12 ((d ++ rest).takeWhile isDigitC).length) = true
  rw [htw, hrtw, List.append_nil]
  apply (phoneDesc_iff _ _).mpr
  refine ⟨d.length, h9, by omega, ?_⟩
  rw [List.drop_left]
  exact (endCheck_iff _).mpr hrest

/-- `validate_phone_id` accepts exactly the phone-shaped strings; in
particular every non-matching input yields `false`. -/
theorem validate_phone_id_iff (s : List Char) :
    validate_phone_id s = true ↔ PhoneOk s := by
  constructor
  · intro h
    have h' : ((match stripPref (str "+62") s with
        | some r => phoneTailV r | none => false) ||
       (match stripPref (str "62") s with
        | some r => phoneTailV r | none => false) ||
       (match stripPref (str "0") s with
        | some r => phoneTailV r | none => false)) = true := h
    rcases Bool.or_eq_true_iff.mp h' with h12 | h3
    · rcases Bool.or_eq_true_iff.mp h12 with h1 | h2
      · cases hsp : stripPref (str "+62") s with
        | none => rw [hsp] at h1; simp at h1
        | some r =>
          rw [hsp] at h1; dsimp only at h1
          obtain ⟨d, rest, hr, hd, h9, h12', hrest⟩ := phoneTailV_shape r h1
          exact ⟨str "+62", d, rest, Or.inl rfl,
            by rw [stripPref_sound _ _ _ hsp, hr], hd, h9, h12', hrest⟩
      · cases hsp : stripPref (str "62") s with
        | none => rw [hsp] at h2; simp at h2
        | some r =>
          rw [hsp] at h2; dsimp only at h2
          obtain ⟨d, rest, hr, hd, h9, h12', hrest⟩ := phoneTailV_shape r h2
          exact ⟨str "62", d, rest, Or.inr (Or.inl rfl),
            by rw [stripPref_sound _ _ _ hsp, hr], hd, h9, h12', hrest⟩
    · cases hsp : stripPref (str "0") s with
      | none => rw [hsp] at h3; simp at h3
      | some r =>
        rw [hsp] at h3; dsimp only at h3
        obtain ⟨d, rest, hr, hd, h9, h12', hrest⟩ := phoneTailV_shape r h3
        exact ⟨str "0", d, rest, Or.inr (Or.inr rfl),
          by rw [stripPref_sound _ _ _ hsp, hr], hd, h9, h12', hrest⟩
  · rintro ⟨p, d, rest, hp, hs, hd, h9, h12, hrest⟩
    have hv : phoneTailV (d ++ rest) = true :=
      phoneTailV_of_shape d rest hd h9 h12 hrest
    rcases hp with hp | hp | hp <;> subst hp <;> subst hs <;>
      unfold validate_phone_id
    · apply Bool.or_eq_true_iff.mpr
      left
      apply Bool.or_eq_true_iff.mpr
      left
      rw [stripPref_self]
      exact hv
    · apply Bool.or_eq_true_iff.mpr
      left
      apply Bool.or_eq_true_iff.mpr
      right
      rw [stripPref_self]
      exact hv
    · apply Bool.or_eq_true_iff.mpr
      right
      rw [stripPref_self]
      exact hv

/-! ### Characterization of `validate_email` -/

/-- `validate_email` accepts exactly the email-shaped strings; in
particular every non-matching input yields `false`. -/
theorem validate_email_iff (s : List Char) :
    validate_email s = true ↔ EmailOk s := by
  constructor
  · intro h
    unfold validate_email at h
    cases hE : (s.takeWhile isLocalA).isEmpty with
    | true => rw [hE] at h; simp at h
    | false =>
      rw [hE, if_neg (by simp)] at h
      cases hD : s.dropWhile isLocalA with
      | nil => rw [hD] at h; simp at h
      | cons c r2 =>
        rw [hD] at h; dsimp only at h
        obtain ⟨hc, hdom⟩ := Bool.and_eq_true_iff.mp h
        have hc' : c = '@' := of_decide_eq_true hc
        obtain ⟨j, hj1, hjB, hstep⟩ := (emailDomEnd_iff r2 _).mp hdom
        have hjlen : j ≤ r2.length := le_trans hjB (takeWhile_length_le _ _)
        cases hD2 : r2.drop j with
        | nil => unfold emailDomStep at hstep; rw [hD2] at hstep; simp at hstep
        | cons c2 r3 =>
          unfold emailDomStep at hstep
          rw [hD2] at hstep; dsimp only at hstep
          obtain ⟨hc2, hlet⟩ := Bool.and_eq_true_iff.mp hstep
          have hc2' : c2 = '.' := of_decide_eq_true hc2
          obtain ⟨l2, h2l, hlA, hend⟩ := (lettersEnd_iff r3 _).mp hlet
          have hlr : l2 ≤ r3.length := le_trans hlA (takeWhile_length_le _ _)
          obtain ⟨l, hl⟩ : ∃ x, x = s.takeWhile isLocalA := ⟨_, rfl⟩
          obtain ⟨dm, hdm⟩ : ∃ x, x = r2.take j := ⟨_, rfl⟩
          obtain ⟨tl, htl⟩ : ∃ x, x = r3.take l2 := ⟨_, rfl⟩
          obtain ⟨rest, hrst⟩ : ∃ x, x = r3.drop l2 := ⟨_, rfl⟩
          have e1 : s = l ++ ('@' :: r2) := by
            rw [hl]
            conv_lhs => rw [← List.takeWhile_append_dropWhile isLocalA s]
            rw [hD, hc']
          have e2 : r2 = dm ++ ('.' :: r3) := by
            rw [hdm]
            conv_lhs => rw [← List.take_append_drop j r2]
            rw [hD2, hc2']
          have e3 : r3 = tl ++ rest := by
            rw [htl, hrst, List.take_append_drop]
          refine ⟨l, dm, tl, rest, ?_, ?_,
            ?_, ?_, ?_, ?_, ?_,
            (endCheck_iff _).mp (hrst ▸ hend)⟩
          · rw [e1, e2, e3]
          · rw [hl]; intro hn; rw [hn] at hE; simp at hE
          · rw [hl]; exact fun c hc => List.mem_takeWhile_imp hc
          · rw [hdm]
            apply List.ne_nil_of_length_pos
            rw [List.length_take]; omega
          · rw [hdm]; exact take_all_of_le_takeWhile _ r2 j hjB
          · rw [htl, List.length_take]; omega
          · rw [htl]; exact take_all_of_le_takeWhile _ r3 l2 hlA
  · rintro ⟨l, dm, tl, rest, hs, hl0, hlA, hdm0, hdmB, htl2, htlA, hrest⟩
    subst hs
    obtain ⟨hTW, hDW⟩ := takeWhile_all_append isLocalA l
      ('@' :: (dm ++ '.' :: (tl ++ rest))) hlA
      (by
        intro c hc
        have : c = '@' := by simpa using hc.symm
        rw [this]; decide)
    unfold validate_email
    rw [hTW, hDW,
      show l.isEmpty = false from by
        cases l with
        | nil => exact absurd rfl hl0
        | cons a as => rfl,
      if_neg (by simp)]
    dsimp only
    apply Bool.and_eq_true_iff.mpr
    refine ⟨by decide, ?_⟩
    have hBrun : dm.length ≤ ((dm ++ '.' :: (tl ++ rest)).takeWhile isDomB).length := by
      rw [(takeWhile_all_left isDomB dm ('.' :: (tl ++ rest)) hdmB).1,
        List.length_append]
      omega
    apply (emailDomEnd_iff _ _).mpr
    refine ⟨dm.length, ?_, hBrun, ?_⟩
    · cases dm with
      | nil => exact absurd rfl hdm0
      | cons a as => simp [List.length_cons]
    · unfold emailDomStep
      rw [List.drop_left]
      dsimp only
      apply Bool.and_eq_true_iff.mpr
      refine ⟨by decide, ?_⟩
      apply (lettersEnd_iff _ _).mpr
      refine ⟨tl.length, htl2, ?_, ?_⟩
      · rw [(takeWhile_all_left isAlphaC tl rest htlA).1, List.length_append]
        omega
      · rw [List.drop_left]
        exact (endCheck_iff _).mpr hrest

/-! ### Characterization of `validate_url` -/

theorem urlHostStart_iff_shape (r3 : List Char) :
    urlHostStart r3 = true ↔
    ∃ hst tl ct pth rest, r3 = hst ++ '.' :: ((tl ++ [ct]) ++ (pth ++ rest)) ∧
      hst ≠ [] ∧ hst.length ≤ 256 ∧ (∀ c ∈ hst, isUrlHost c = true) ∧
      (tl ++ [ct]).length ≤ 6 ∧ (∀ c ∈ tl ++ [ct], isUrlTld c = true) ∧
      wordBdry (isWordChar ct) (pth ++ rest) = true ∧
      (∀ c ∈ pth, isUrlPath c = true) ∧ EndOk rest := by
  constructor
  · intro h
    unfold urlHostStart at h
    obtain ⟨j, hj1, hjm, hstep⟩ := (hostDesc_iff r3 _).mp h
    have hjrun : j ≤ (r3.takeWhile isUrlHost).length :=
      le_trans hjm (Nat.min_le_right _ _)
    have hj256 : j ≤ 256 := le_trans hjm (Nat.min_le_left _ _)
    have hjlen : j ≤ r3.length := le_trans hjrun (takeWhile_length_le _ _)
    unfold hostStep at hstep
    cases hD : r3.drop j with
    | nil => rw [hD] at hstep; simp at hstep
    | cons c r4 =>
      rw [hD] at hstep; dsimp only at hstep
      obtain ⟨hc, hdot⟩ := Bool.and_eq_true_iff.mp hstep
      have hc' : c = '.' := of_decide_eq_true hc
      unfold urlAfterDot at hdot
      obtain ⟨m, hm1, hmm, htstep⟩ := (urlTldDesc_iff r4 _).mp hdot
      have hmrun : m ≤ (r4.takeWhile isUrlTld).length :=
        le_trans hmm (Nat.min_le_right _ _)
      have hm6 : m ≤ 6 := le_trans hmm (Nat.min_le_left _ _)
      have hmlen : m ≤ r4.length := le_trans hmrun (takeWhile_length_le _ _)
      unfold urlTldStep at htstep
      cases hD2 : r4.drop (m - 1) with
      | nil => rw [hD2] at htstep; simp at htstep
      | cons ct rest2 =>
        rw [hD2] at htstep; dsimp only at htstep
        obtain ⟨hwb, hc3⟩ := Bool.and_eq_true_iff.mp htstep
        obtain ⟨pl, hplrun, hend⟩ := (c3Desc_iff rest2 _).mp hc3
        have hpllen : pl ≤ rest2.length :=
          le_trans hplrun (takeWhile_length_le _ _)
        obtain ⟨hst, hhst⟩ : ∃ x, x = r3.take j := ⟨_, rfl⟩
        obtain ⟨tl, htl⟩ : ∃ x, x = r4.take (m - 1) := ⟨_, rfl⟩
        obtain ⟨pth, hpth⟩ : ∃ x, x = rest2.take pl := ⟨_, rfl⟩
        obtain ⟨rest, hrst⟩ : ∃ x, x = rest2.drop pl := ⟨_, rfl⟩
        have hlen_tl : tl.length = m - 1 := by
          rw [htl, List.length_take]; omega
        have hr4 : r4 = tl ++ (ct :: rest2) := by
          rw [htl]
          conv_lhs => rw [← List.take_append_drop (m - 1) r4]
          rw [hD2]
        have htlct : r4.take m = tl ++ [ct] := by
          conv_lhs =>
            rw [hr4, show m = tl.length + 1 from by rw [hlen_tl]; omega]
          rw [take_len_plus]
          rfl
        have htlall : ∀ c2 ∈ tl ++ [ct], isUrlTld c2 = true := by
          rw [← htlct]; exact take_all_of_le_takeWhile _ r4 m hmrun
        have htllen : (tl ++ [ct]).length ≤ 6 := by
          rw [← htlct, List.length_take]; omega
        have e3 : r3 = hst ++ ('.' :: r4) := by
          rw [hhst]
          conv_lhs => rw [← List.take_append_drop j r3]
          rw [hD, hc']
        have e2 : rest2 = pth ++ rest := by
          rw [hpth, hrst, List.take_append_drop]
        refine ⟨hst, tl, ct, pth, rest, ?_, ?_, ?_, ?_, htllen, htlall,
          ?_, ?_, ?_⟩
        · rw [e3, hr4, e2]
          simp [List.append_assoc]
        · rw [hhst]
          apply List.ne_nil_of_length_pos
          rw [List.length_take]; omega
        · rw [hhst, List.length_take]; omega
        · rw [hhst]; exact take_all_of_le_takeWhile _ r3 j hjrun
        · rw [← e2]; exact hwb
        · rw [hpth]; exact take_all_of_le_takeWhile _ rest2 pl hplrun
        · exact (endCheck_iff _).mp (by rw [hrst]; exact hend)
  · rintro ⟨hst, tl, ct, pth, rest, hr3, hh0, hh256, hhall, htl6, htlall,
      hwb, hpall, hend⟩
    subst hr3
    unfold urlHostStart
    apply (hostDesc_iff _ _).mpr
    refine ⟨hst.length, List.length_pos.mpr hh0, ?_, ?_⟩
    · apply Nat.le_min.mpr
      refine ⟨hh256, ?_⟩
      rw [(takeWhile_all_left isUrlHost hst
          ('.' :: ((tl ++ [ct]) ++ (pth ++ rest))) hhall).1,
        List.length_append]
      omega
    · unfold hostStep
      rw [List.drop_left]
      dsimp only
      apply Bool.and_eq_true_iff.mpr
      refine ⟨by decide, ?_⟩
      unfold urlAfterDot
      apply (urlTldDesc_iff _ _).mpr
      refine ⟨tl.length + 1, by omega, ?_, ?_⟩
      · apply Nat.le_min.mpr
        constructor
        · rw [List.length_append, List.length_singleton] at htl6
          omega
        · rw [(takeWhile_all_left isUrlTld (tl ++ [ct]) (pth ++ rest)
              htlall).1, List.length_append, List.length_append,
            List.length_singleton]
          omega
      · unfold urlTldStep
        rw [show tl.length + 1 - 1 = tl.length from rfl,
          show ((tl ++ [ct]) ++ (pth ++ rest)) =
            tl ++ (ct :: (pth ++ rest)) from by
              rw [List.append_assoc]; rfl,
          List.drop_left]
        dsimp only
        apply Bool.and_eq_true_iff.mpr
        refine ⟨hwb, ?_⟩
        apply (c3Desc_iff _ _).mpr
        refine ⟨pth.length, ?_, ?_⟩
        · rw [(takeWhile_all_left isUrlPath pth rest hpall).1,
            List.length_append]
          omega
        · rw [List.drop_left]
          exact (endCheck_iff _).mpr hend

theorem urlWWW_shape (r : List Char) (h : urlWWW r = true) :
    ∃ w r3, r = w ++ r3 ∧ (w = [] ∨ w = str "www.") ∧
      urlHostStart r3 = true := by
  unfold urlWWW at h
  rcases Bool.or_eq_true_iff.mp h with h1 | h2
  · cases hsp : stripPref (str "www.") r with
    | none => rw [hsp] at h1; simp at h1
    | some r3 =>
      rw [hsp] at h1; dsimp only at h1
      exact ⟨str "www.", r3, stripPref_sound _ _ _ hsp, Or.inr rfl, h1⟩
  · exact ⟨[], r, by simp, Or.inl rfl, h2⟩

theorem urlColon_shape (r : List Char) (h : urlColon r = true) :
    ∃ r2, r = str "://" ++ r2 ∧ urlWWW r2 = true := by
  unfold urlColon at h
  cases hsp : stripPref (str "://") r with
  | none => rw [hsp] at h; simp at h
  | some r2 =>
    rw [hsp] at h; dsimp only at h
    exact ⟨r2, stripPref_sound _ _ _ hsp, h⟩

theorem urlScheme2_shape (r1 : List Char) (h : urlScheme2 r1 = true) :
    ∃ sch r2, r1 = sch ++ r2 ∧ (sch = [] ∨ sch = ['s']) ∧
      urlColon r2 = true := by
  unfold urlScheme2 at h
  rcases Bool.or_eq_true_iff.mp h with h1 | h2
  · cases r1 with
    | nil => simp at h1
    | cons c r2 =>
      dsimp only at h1
      obtain ⟨hc, hcol⟩ := Bool.and_eq_true_iff.mp h1
      have hc' : c = 's' := of_decide_eq_true hc
      exact ⟨['s'], r2, by rw [hc']; rfl, Or.inr rfl, hcol⟩
  · exact ⟨[], r1, by simp, Or.inl rfl, h2⟩

theorem urlWWW_intro (R w : List Char) (hw : w = [] ∨ w = str "www.")
    (h : urlHostStart R = true) : urlWWW (w ++ R) = true := by
  unfold urlWWW
  rcases hw with hw | hw <;> subst hw
  · rw [List.nil_append]
    exact Bool.or_eq_true_iff.mpr (Or.inr h)
  · apply Bool.or_eq_true_iff.mpr
    left
    rw [stripPref_self]
    exact h

theorem urlColon_intro (r2 : List Char) (h : urlWWW r2 = true) :
    urlColon (str "://" ++ r2) = true := by
  unfold urlColon
  rw [stripPref_self]
  exact h

theorem urlScheme2_intro (r2 sch : List Char) (hsch : sch = [] ∨ sch = ['s'])
    (h : urlColon r2 = true) : urlScheme2 (sch ++ r2) = true := by
  rcases hsch with hsch | hsch <;> subst hsch
  · rw [List.nil_append]
    unfold urlScheme2
    exact Bool.or_eq_true_iff.mpr (Or.inr h)
  · unfold urlScheme2
    apply Bool.or_eq_true_iff.mpr
    left
    rw [show ((['s'] : List Char) ++ r2) = 's' :: r2 from rfl]
    dsimp only
    exact Bool.and_eq_true_iff.mpr ⟨by decide, h⟩

/-- `validate_url` accepts exactly the URL-shaped strings; in particular
every non-matching input yields `false`. -/
theorem validate_url_iff (s : List Char) : validate_url s = true ↔ UrlOk s := by
  constructor
  · intro h
    unfold validate_url at h
    cases hsp : stripPref (str "http") s with
    | none => rw [hsp] at h; simp at h
    | some r1 =>
      rw [hsp] at h; dsimp only at h
      obtain ⟨sch, r2, hr1, hsch, hcol⟩ := urlScheme2_shape r1 h
      obtain ⟨r2', hr2, hwww⟩ := urlColon_shape r2 hcol
      obtain ⟨w, r3, hr2', hw, hhost⟩ := urlWWW_shape r2' hwww
      obtain ⟨hst, tl, ct, pth, rest, hr3, hh0, hh256, hhall, htl6,
        htlall, hwb, hpall, hend⟩ := (urlHostStart_iff_shape r3).mp hhost
      refine ⟨sch, w, hst, tl, ct, pth, rest, ?_, hsch, hw, hh0, hh256,
        hhall, htl6, htlall, hwb, hpall, hend⟩
      rw [stripPref_sound _ _ _ hsp, hr1, hr2, hr2', hr3]
  · rintro ⟨sch, w, hst, tl, ct, pth, rest, hs, hsch, hw, hh0, hh256,
      hhall, htl6, htlall, hwb, hpall, hend⟩
    subst hs
    unfold validate_url
    rw [stripPref_self]
    dsimp only
    apply urlScheme2_intro _ _ hsch
    apply urlColon_intro
    apply urlWWW_intro _ _ hw
    exact (urlHostStart_iff_shape _).mpr
      ⟨hst, tl, ct, pth, rest, rfl, hh0, hh256, hhall, htl6, htlall,
        hwb, hpall, hend⟩

/-! ### No-match behaviour of the email scans -/

theorem matchEmailAt_none_noAt (pW : Bool) (s : List Char) (h : '@' ∉ s) :
    matchEmailAt pW s = none := by
  unfold matchEmailAt
  cases hT : s.takeWhile isLocalA with
  | nil => rfl
  | cons l0 ls =>
    dsimp only
    by_cases hb : (pW != isWordChar l0) = true
    · rw [if_pos hb]
      cases hD : s.dropWhile isLocalA with
      | nil => rfl
      | cons c r2 =>
        dsimp only
        have hc : c ∈ s := by
          have hmem : c ∈ s.dropWhile isLocalA := by rw [hD]; simp
          rw [← List.takeWhile_append_dropWhile isLocalA s]
          exact List.mem_append_right _ hmem
        rw [if_neg (fun (hEq : c = '@') => h (hEq ▸ hc))]
    · rw [if_neg hb]

theorem emailsGoF_noAt (fuel : Nat) : ∀ (pW : Bool) (s : List Char), '@' ∉ s →
    emailsGoF fuel pW s = s ∧ emailsExtGoF fuel pW s = [] := by
  induction fuel with
  | zero => intro pW s _; exact ⟨rfl, rfl⟩
  | succ fuel ih =>
    intro pW s h
    cases s with
    | nil => exact ⟨rfl, rfl⟩
    | cons c cs =>
      have hm : matchEmailAt pW (c :: cs) = none := matchEmailAt_none_noAt pW _ h
      have hcs : '@' ∉ cs := fun hx => h (List.mem_cons_of_mem _ hx)
      constructor
      · rw [show emailsGoF (fuel + 1) pW (c :: cs) =
            (match matchEmailAt pW (c :: cs) with
             | some (l, d, rest) => l ++ str "***@" ++ d ++ emailsGoF fuel true rest
             | none => c :: emailsGoF fuel (isWordChar c) cs) from rfl, hm]
        dsimp only
        rw [(ih (isWordChar c) cs hcs).1]
      · rw [show emailsExtGoF (fuel + 1) pW (c :: cs) =
            (match matchEmailAt pW (c :: cs) with
             | some (l, d, rest) =>
               (l ++ '@' :: d) :: emailsExtGoF fuel true rest
             | none => emailsExtGoF fuel (isWordChar c) cs) from rfl, hm]
        dsimp only
        exact (ih (isWordChar c) cs hcs).2

/-! ### No-match behaviour of the phone scans -/

theorem nineAt_of_digits (r d v : List Char) (hr : r = d ++ v)
    (hd : ∀ c ∈ d, isDigitC c = true) (h9 : 9 ≤ d.length) :
    (decide (9 ≤ r.length) && (r.take 9).all isDigitC) = true := by
  subst hr
  apply Bool.and_eq_true_iff.mpr
  constructor
  · simp only [decide_eq_true_eq, List.length_append]
    omega
  · apply List.all_eq_true.mpr
    have hrun : d.length ≤ ((d ++ v).takeWhile isDigitC).length := by
      rw [(takeWhile_all_left isDigitC d v hd).1, List.length_append]
      omega
    exact take_all_of_le_takeWhile _ _ 9 (le_trans h9 hrun)

theorem phoneTailE_nine (r : List Char) (h : (phoneTailE r).isSome = true) :
    (decide (9 ≤ r.length) && (r.take 9).all isDigitC) = true := by
  unfold phoneTailE at h
  by_cases h9 : 9 ≤ (r.takeWhile isDigitC).length
  · apply nineAt_of_digits r (r.take 9) (r.drop 9)
      (List.take_append_drop 9 r).symm (take_all_of_le_takeWhile _ r 9 h9)
    rw [List.length_take]
    have := le_trans h9 (takeWhile_length_le isDigitC r)
    omega
  · rw [if_neg h9] at h
    simp at h

theorem matchPhoneAt3_nine (s : List Char) (p : List Char × List Char)
    (h : matchPhoneAt3 s = some p) : phoneNineAt s = true := by
  unfold matchPhoneAt3 at h
  cases hsp : stripPref (str "0") s with
  | none => rw [hsp] at h; simp at h
  | some r =>
    rw [hsp] at h; dsimp only at h
    cases hpt : phoneTailE r with
    | none => rw [hpt] at h; simp at h
    | some rest =>
      unfold phoneNineAt
      apply Bool.or_eq_true_iff.mpr
      right
      rw [hsp]
      exact phoneTailE_nine r (by rw [hpt]; rfl)

theorem matchPhoneAt2_nine (s : List Char) (p : List Char × List Char)
    (h : matchPhoneAt2 s = some p) : phoneNineAt s = true := by
  unfold matchPhoneAt2 at h
  cases hsp : stripPref (str "62") s with
  | none => rw [hsp] at h; exact matchPhoneAt3_nine s p h
  | some r =>
    rw [hsp] at h; dsimp only at h
    cases hpt : phoneTailE r with
    | none => rw [hpt] at h; exact matchPhoneAt3_nine s p h
    | some rest =>
      unfold phoneNineAt
      apply Bool.or_eq_true_iff.mpr
      left
      apply Bool.or_eq_true_iff.mpr
      right
      rw [hsp]
      exact phoneTailE_nine r (by rw [hpt]; rfl)

theorem matchPhoneAt_nine (s : List Char) (p : List Char × List Char)
    (h : matchPhoneAt s = some p) : phoneNineAt s = true := by
  unfold matchPhoneAt at h
  cases hsp : stripPref (str "+62") s with
  | none => rw [hsp] at h; exact matchPhoneAt2_nine s p h
  | some r =>
    rw [hsp] at h; dsimp only at h
    cases hpt : phoneTailE r with
    | none => rw [hpt] at h; exact matchPhoneAt2_nine s p h
    | some rest =>
      unfold phoneNineAt
      apply Bool.or_eq_true_iff.mpr
      left
      apply Bool.or_eq_true_iff.mpr
      left
      rw [hsp]
      exact phoneTailE_nine r (by rw [hpt]; rfl)

theorem phonesGoF_empty (fuel : Nat) : ∀ t : List Char,
    hasPhoneNine t = false → phonesGoF fuel t = [] := by
  induction fuel with
  | zero => intro t _; rfl
  | succ fuel ih =>
    intro t h
    cases t with
    | nil => rfl
    | cons c cs =>
      obtain ⟨h1, h2⟩ := Bool.or_eq_false_iff.mp h
      cases hm : matchPhoneAt (c :: cs) with
      | some p =>
        rw [matchPhoneAt_nine _ p hm] at h1
        simp at h1
      | none =>
        rw [show phonesGoF (fuel + 1) (c :: cs) =
            (match matchPhoneAt (c :: cs) with
             | some (g, rest) => g :: phonesGoF fuel rest
             | none => phonesGoF fuel cs) from rfl, hm]
        exact ih cs h2

theorem tryMiddle_some_struct (s : List Char) : ∀ (k : Nat)
    (m l4 rest : List Char), tryMiddle s k = some (m, l4, rest) →
    s = (m ++ l4) ++ rest ∧ (∀ c ∈ m ++ l4, isDigitC c = true) ∧
    9 ≤ (m ++ l4).length := by
  intro k
  induction k with
  | zero => intro m l4 rest h; cases h
  | succ k ih =>
    intro m l4 rest h
    unfold tryMiddle at h
    by_cases hk : k + 1 < 5
    · rw [if_pos hk] at h; cases h
    · rw [if_neg hk] at h
      cases hd1 : takeDigitsN s (k + 1) with
      | none => rw [hd1] at h; exact ih m l4 rest h
      | some p1 =>
        obtain ⟨m', r1⟩ := p1
        rw [hd1] at h; dsimp only at h
        cases hd2 : takeDigitsN r1 4 with
        | none => rw [hd2] at h; exact ih m l4 rest h
        | some p2 =>
          obtain ⟨l4', rest'⟩ := p2
          rw [hd2] at h; dsimp only at h
          obtain ⟨hs1, hlen1, hall1⟩ := takeDigitsN_sound (k + 1) s m' r1 hd1
          obtain ⟨hs2, hlen2, hall2⟩ := takeDigitsN_sound 4 r1 l4' rest' hd2
          simp only [Option.some_inj, Prod.mk.injEq] at h
          obtain ⟨rfl, rfl, rfl⟩ := h
          refine ⟨by rw [hs1, hs2, List.append_assoc], ?_, ?_⟩
          · intro c hc
            rcases List.mem_append.mp hc with hc | hc
            · exact List.all_eq_true.mp hall1 c hc
            · exact List.all_eq_true.mp hall2 c hc
          · rw [List.length_append]
            omega

theorem matchMaskAt3_nine (s : List Char)
    (p : List Char × List Char × List Char × List Char)
    (h : matchMaskAt3 s = some p) : phoneNineAt s = true := by
  unfold matchMaskAt3 at h
  cases hsp : stripPref (str "0") s with
  | none => rw [hsp] at h; simp at h
  | some r =>
    rw [hsp] at h; dsimp only at h
    cases htm : tryMiddle r 8 with
    | none => rw [htm] at h; simp at h
    | some q =>
      obtain ⟨m, l4, rest⟩ := q
      obtain ⟨hr, hall, h9⟩ := tryMiddle_some_struct r 8 m l4 rest htm
      unfold phoneNineAt
      apply Bool.or_eq_true_iff.mpr
      right
      rw [hsp]
      exact nineAt_of_digits r (m ++ l4) rest hr hall h9

theorem matchMaskAt2_nine (s : List Char)
    (p : List Char × List Char × List Char × List Char)
    (h : matchMaskAt2 s = some p) : phoneNineAt s = true := by
  unfold matchMaskAt2 at h
  cases hsp : stripPref (str "62") s with
  | none => rw [hsp] at h; exact matchMaskAt3_nine s p h
  | some r =>
    rw [hsp] at h; dsimp only at h
    cases htm : tryMiddle r 8 with
    | none => rw [htm] at h; exact matchMaskAt3_nine s p h
    | some q =>
      obtain ⟨m, l4, rest⟩ := q
      obtain ⟨hr, hall, h9⟩ := tryMiddle_some_struct r 8 m l4 rest htm
      unfold phoneNineAt
      apply Bool.or_eq_true_iff.mpr
      left
      apply Bool.or_eq_true_iff.mpr
      right
      rw [hsp]
      exact nineAt_of_digits r (m ++ l4) rest hr hall h9

theorem matchMaskAt_nine (s : List Char)
    (p : List Char × List Char × List Char × List Char)
    (h : matchMaskAt s = some p) : phoneNineAt s = true := by
  unfold matchMaskAt at h
  cases hsp : stripPref (str "+62") s with
  | none => rw [hsp] at h; exact matchMaskAt2_nine s p h
  | some r =>
    rw [hsp] at h; dsimp only at h
    cases htm : tryMiddle r 8 with
    | none => rw [htm] at h; exact matchMaskAt2_nine s p h
    | some q =>
      obtain ⟨m, l4, rest⟩ := q
      obtain ⟨hr, hall, h9⟩ := tryMiddle_some_struct r 8 m l4 rest htm
      unfold phoneNineAt
      apply Bool.or_eq_true_iff.mpr
      left
      apply Bool.or_eq_true_iff.mpr
      left
      rw [hsp]
      exact nineAt_of_digits r (m ++ l4) rest hr hall h9

theorem maskGoF_id (fuel : Nat) : ∀ t : List Char,
    hasPhoneNine t = false → maskGoF fuel t = t := by
  induction fuel with
  | zero => intro t _; rfl
  | succ fuel ih =>
    intro t h
    cases t with
    | nil => rfl
    | cons c cs =>
      obtain ⟨h1, h2⟩ := Bool.or_eq_false_iff.mp h
      cases hm : matchMaskAt (c :: cs) with
      | some p =>
        rw [matchMaskAt_nine _ p hm] at h1
        simp at h1
      | none =>
        rw [show maskGoF (fuel + 1) (c :: cs) =
            (match matchMaskAt (c :: cs) with
             | some (p, _, l4, rest) => p ++ str "****" ++ l4 ++ maskGoF fuel rest
             | none => c :: maskGoF fuel cs) from rfl, hm]
        dsimp only
        rw [ih cs h2]

/-! ### No-match behaviour of the URL scan -/

theorem urlColonExt_sep (r : List Char) (p : List Char × List Char)
    (h : urlColonExt r = some p) : ∃ v, r = str "://" ++ v := by
  unfold urlColonExt at h
  cases hsp : stripPref (str "://") r with
  | none => rw [hsp] at h; simp at h
  | some r2 => exact ⟨r2, stripPref_sound _ _ _ hsp⟩

theorem urlSchemeExt_sep (r1 : List Char) (q : List Char × List Char)
    (h : urlSchemeExt r1 = some q) : ∃ u v, r1 = u ++ (str "://" ++ v) := by
  unfold urlSchemeExt at h
  cases r1 with
  | nil =>
    obtain ⟨v, hv⟩ := urlColonExt_sep _ q h
    exact ⟨[], v, by rw [← hv]; rfl⟩
  | cons c r2 =>
    dsimp only at h
    by_cases hc : c = 's'
    · rw [if_pos hc] at h
      cases hce : urlColonExt r2 with
      | none =>
        rw [hce] at h
        obtain ⟨v, hv⟩ := urlColonExt_sep _ q h
        exact ⟨[], v, by rw [← hv]; rfl⟩
      | some p2 =>
        obtain ⟨v, hv⟩ := urlColonExt_sep _ p2 hce
        exact ⟨[c], v, by rw [hv]; rfl⟩
    · rw [if_neg hc] at h
      obtain ⟨v, hv⟩ := urlColonExt_sep _ q h
      exact ⟨[], v, by rw [← hv]; rfl⟩

theorem hasSchemeSep_here (x : List Char)
    (hx : (stripPref (str "://") x).isSome = true) :
    ∀ u : List Char, hasSchemeSep (u ++ x) = true := by
  intro u
  induction u with
  | nil =>
    cases x with
    | nil => simp [stripPref] at hx
    | cons c cs =>
      rw [List.nil_append]
      exact Bool.or_eq_true_iff.mpr (Or.inl hx)
  | cons a u' ih =>
    rw [show ((a :: u') ++ x) = a :: (u' ++ x) from rfl]
    exact Bool.or_eq_true_iff.mpr (Or.inr ih)

theorem hasSchemeSep_at (u v : List Char) :
    hasSchemeSep (u ++ (str "://" ++ v)) = true :=
  hasSchemeSep_here (str "://" ++ v) (by rw [stripPref_self]; rfl) u

theorem matchUrlAt_sep (s : List Char) (p : List Char × List Char)
    (h : matchUrlAt s = some p) : hasSchemeSep s = true := by
  unfold matchUrlAt at h
  cases hsp : stripPref (str "http") s with
  | none => rw [hsp] at h; simp at h
  | some r1 =>
    rw [hsp] at h; dsimp only at h
    cases hse : urlSchemeExt r1 with
    | none => rw [hse] at h; simp at h
    | some q =>
      obtain ⟨u, v, hv⟩ := urlSchemeExt_sep r1 q hse
      rw [stripPref_sound _ _ _ hsp, hv, ← List.append_assoc]
      exact hasSchemeSep_at (str "http" ++ u) v

theorem urlsGoF_empty (fuel : Nat) : ∀ t : List Char,
    hasSchemeSep t = false → urlsGoF fuel t = [] := by
  induction fuel with
  | zero => intro t _; rfl
  | succ fuel ih =>
    intro t h
    cases t with
    | nil => rfl
    | cons c cs =>
      obtain ⟨h1, h2⟩ := Bool.or_eq_false_iff.mp h
      cases hm : matchUrlAt (c :: cs) with
      | some p =>
        have := matchUrlAt_sep _ p hm
        obtain ⟨h1', h2'⟩ := Bool.or_eq_false_iff.mp h
        rw [this] at h
        simp at h
      | none =>
        rw [show urlsGoF (fuel + 1) (c :: cs) =
            (match matchUrlAt (c :: cs) with
             | some (m, rest) => m :: urlsGoF fuel rest
             | none => urlsGoF fuel cs) from rfl, hm]
        exact ih cs h2

/-! ### No-match behaviour of `remove_html_tags` -/

theorem matchHtmlAt_some_tag (s r : List Char) (h : matchHtmlAt s = some r) :
    htmlTagAt s = true := by
  cases s with
  | nil => simp [matchHtmlAt] at h
  | cons c rest =>
    unfold matchHtmlAt at h
    dsimp only at h
    by_cases hc : c = '<'
    · rw [if_pos hc] at h
      cases htw : rest.takeWhile (fun d => !(d = '>')) with
      | nil => rw [htw] at h; simp at h
      | cons a as =>
        rw [htw] at h; dsimp only at h
        cases hdw : rest.dropWhile (fun d => !(d = '>')) with
        | nil => rw [hdw] at h; simp at h
        | cons d r2 =>
          unfold htmlTagAt
          dsimp only
          rw [htw, hdw, hc]
          simp
    · rw [if_neg hc] at h
      simp at h

theorem htmlGoF_id (fuel : Nat) : ∀ t : List Char,
    hasHtmlTag t = false → htmlGoF fuel t = t := by
  induction fuel with
  | zero => intro t _; rfl
  | succ fuel ih =>
    intro t h
    cases t with
    | nil => rfl
    | cons c cs =>
      obtain ⟨h1, h2⟩ := Bool.or_eq_false_iff.mp h
      cases hm : matchHtmlAt (c :: cs) with
      | some r =>
        rw [matchHtmlAt_some_tag _ r hm] at h1
        simp at h1
      | none =>
        rw [show htmlGoF (fuel + 1) (c :: cs) =
            (match matchHtmlAt (c :: cs) with
             | some rest => htmlGoF fuel rest
             | none => c :: htmlGoF fuel cs) from rfl, hm]
        dsimp only
        rw [ih cs h2]

/-! ### No-match behaviour of `normalize_whitespace` -/

theorem dropWhile_all_id (p : Char → Bool) (l : List Char)
    (h : ∀ c ∈ l, p c = false) : l.dropWhile p = l := by
  cases l with
  | nil => rfl
  | cons c cs => simp [List.dropWhile, h c (List.mem_cons_self c cs)]

theorem wsGo_false_id : ∀ t : List Char,
    (∀ c ∈ t, isSpaceC c = false) → wsGo false t = t := by
  intro t
  induction t with
  | nil => intro _; rfl
  | cons c cs ih =>
    intro h
    rw [show wsGo false (c :: cs) =
        (if isSpaceC c then (if false then wsGo true cs else ' ' :: wsGo true cs)
         else c :: wsGo false cs) from rfl,
      if_neg (by simp [h c (List.mem_cons_self c cs)])]
    rw [ih (fun c2 hc2 => h c2 (List.mem_cons_of_mem _ hc2))]

theorem normalize_whitespace_id (t : List Char)
    (h : ∀ c ∈ t, isSpaceC c = false) : normalize_whitespace t = t := by
  unfold normalize_whitespace
  rw [wsGo_false_id t h]
  unfold stripEnds
  rw [dropWhile_all_id _ t h,
    dropWhile_all_id _ t.reverse (fun c hc => h c (List.mem_reverse.mp hc)),
    List.reverse_reverse]

/-! ### No-occurrence behaviour of `extract_dates` -/

theorem datesScan_empty : ∀ (pW : Bool) (t : List Char) (out : List (List Char)),
    DatesScan pW t out →
    (∀ u m rest, t = u ++ (m ++ rest) →
      ¬(DateShape m ∧ endBoundary rest = true)) →
    out = [] := by
  intro pW t out h
  induction h with
  | nil pW => intro _; rfl
  | skip pW c cs out hcond hrec ih =>
    intro hno
    apply ih
    intro u m rest hcs
    exact hno (c :: u) m rest (by rw [hcs]; rfl)
  | found m rest out hshape hend hrec ih =>
    intro hno
    exact absurd ⟨hshape, hend⟩ (hno [] m rest (by simp))

/-! ### C7 -/

/-- Claim C7: every operation of the toolkit is a total function of its
input with the documented no-match behaviour. Validators yield `false` on
every non-matching input: the four regex validators are proved complete
against their accepted shapes (`EmailOk`, `PhoneOk`, `UrlOk`, `nikOk`),
and each password criterion is `false` exactly when no character
satisfies it. Extractors yield the empty list when no occurrence of
their pattern is present, and replacers return the input unchanged:
emails need an `@`, phone patterns a prefix followed by nine digits,
URLs a `://`, hashtags and mentions their marker followed by a word
character, dates a date-shaped substring, HTML removal a tag, and
whitespace normalization a whitespace character. Censoring with words
that occur nowhere (case-insensitively) is the identity, and
caller-supplied censor words are escaped (`re.escape`) and matched
literally: the word `"a.b"` does not censor `"axb"` but censors
`"a.b"` itself. -/
theorem operations_total (t : List Char) (ws : List (List Char)) :
    (validate_email t = true ↔ EmailOk t) ∧
    (validate_phone_id t = true ↔ PhoneOk t) ∧
    (validate_url t = true ↔ UrlOk t) ∧
    validate_nik t = nikOk t ∧
    ((validate_password t).min_length = false ↔ t.length < 8) ∧
    ((validate_password t).has_uppercase = false ↔
      ∀ c ∈ t, isUpperC c = false) ∧
    ((validate_password t).has_lowercase = false ↔
      ∀ c ∈ t, isLowerC c = false) ∧
    ((validate_password t).has_digit = false ↔
      ∀ c ∈ t, isDigitC c = false) ∧
    ((validate_password t).has_special = false ↔
      ∀ c ∈ t, isSpecialC c = false) ∧
    ('@' ∉ t → extract_emails t = []) ∧
    (hasPhoneNine t = false → extract_phone_numbers t = []) ∧
    (hasSchemeSep t = false → extract_urls t = []) ∧
    (hasTagOcc '#' t = false → extract_hashtags t = []) ∧
    (hasTagOcc '@' t = false → extract_mentions t = []) ∧
    ((∀ u m rest, t = u ++ (m ++ rest) →
        ¬(DateShape m ∧ endBoundary rest = true)) → extract_dates t = []) ∧
    ('@' ∉ t → mask_email t = t) ∧
    (hasPhoneNine t = false → mask_phone t = t) ∧
    (hasHtmlTag t = false → remove_html_tags t = t) ∧
    ((∀ c ∈ t, isSpaceC c = false) → normalize_whitespace t = t) ∧
    ((∀ w ∈ ws, hasCIOcc w t = false) → censor_profanity t ws = t) ∧
    censor_profanity (str "axb") [str "a.b"] = str "axb" ∧
    censor_profanity (str "a.b") [str "a.b"] = str "***" := by
  refine ⟨validate_email_iff t, validate_phone_id_iff t, validate_url_iff t,
    validate_nik_eq_nikOk t, ?_, ?_, ?_, ?_, ?_,
    fun h => (emailsGoF_noAt t.length false t h).2,
    fun h => phonesGoF_empty t.length t h,
    fun h => urlsGoF_empty t.length t h,
    fun h => tagGoF_empty '#' t.length t h,
    fun h => tagGoF_empty '@' t.length t h,
    fun h => datesScan_empty false t _ (datesGoF_scan t.length false t le_rfl) h,
    fun h => (emailsGoF_noAt t.length false t h).1,
    fun h => maskGoF_id t.length t h,
    fun h => htmlGoF_id t.length t h,
    fun h => normalize_whitespace_id t h,
    fun h => censor_profanity_id t ws h,
    by decide, by decide⟩
  · simp only [validate_password, decide_eq_false_iff_not]
    omega
  · simp only [validate_password, List.any_eq_false, Bool.not_eq_true]
  · simp only [validate_password, List.any_eq_false, Bool.not_eq_true]
  · simp only [validate_password, List.any_eq_false, Bool.not_eq_true]
  · simp only [validate_password, List.any_eq_false, Bool.not_eq_true]

/-- Witness for C7 on concrete non-matching inputs: each no-match
hypothesis is discharged at the text `"xy"` with the word list
`["ab"]`. -/
theorem operations_total_witness :
    extract_emails (str "xy") = [] ∧
    extract_phone_numbers (str "xy") = [] ∧
    extract_urls (str "xy") = [] ∧
    extract_hashtags (str "xy") = [] ∧
    extract_mentions (str "xy") = [] ∧
    extract_dates (str "xy") = [] ∧
    mask_email (str "xy") = str "xy" ∧
    mask_phone (str "xy") = str "xy" ∧
    remove_html_tags (str "xy") = str "xy" ∧
    normalize_whitespace (str "xy") = str "xy" ∧
    censor_profanity (str "xy") [str "ab"] = str "xy" := by
  obtain ⟨_, _, _, _, _, _, _, _, _, h10, h11, h12, h13, h14, h15, h16,
    h17, h18, h19, h20, _, _⟩ := operations_total (str "xy") [str "ab"]
  refine ⟨h10 (by decide), h11 (by decide), h12 (by decide),
    h13 (by decide), h14 (by decide), h15 ?_, h16 (by decide),
    h17 (by decide), h18 (by decide), h19 (by decide), h20 (by decide)⟩
  rintro u m rest heq
    ⟨⟨d1, s1, d2, s2, y, hm, _, hd1, _, _, _, hd2, _, _, _, hy⟩, _⟩
  have hlen := congrArg List.length heq
  rw [show (str "xy").length = 2 from rfl, hm] at hlen
  simp only [List.length_append, List.length_cons] at hlen
  omega
